import Mathlib

/-!
# Segregated fixed-size pool allocator (`custom_alloc.c`)

A shallow embedding of the allocator of `custom_alloc.c` and a verification of
its behaviour.

* Addresses and machine words are natural numbers; the null pointer is `0`.
* The build-time and platform parameters (`PTR_SZ`, `SMALL_POOL_BLOCKS`,
  `LARGE_POOL_BLOCKS`) and the addresses the linker gives to the two static
  arrays are collected in `Config`.
* Memory is a map from a byte address to the pointer-sized word stored there.
  The allocator only reads and writes the first word of a block, so this is all
  the memory it can observe; block starts are at least `PTR_SZ` bytes apart, so
  these words do not overlap.
* An allocated block belongs to the caller, who may write into it. What the
  allocator can observe of such a write is the first word of the block, so a
  caller write is a step `Call.store` of a run, next to the calls of `malloc`
  and `free`.
* The debug probe's loops are run with a bound on the number of iterations
  (`fuel`); the results state which bound suffices.
* The module's mutable globals (`free_small`, `free_large`, `pools_inited`)
  together with the memory form `State`; each C function becomes a function
  from a state to a result and a new state.
-/

namespace CustomAlloc

/-! ## 1. Configuration -/

/-- Platform and build parameters of the translation unit. -/
structure Config where
  /-- The value of `sizeof(void *)`. -/
  PTR_SZ : Nat
  /-- Number of blocks of the small pool. -/
  SMALL_POOL_BLOCKS : Nat
  /-- Number of blocks of the large pool. -/
  LARGE_POOL_BLOCKS : Nat
  /-- Address of the static array `pool_small`. -/
  pool_small : Nat
  /-- Address of the static array `pool_large`. -/
  pool_large : Nat

/-- Upper bound of the small class: `REQ_SMALL = 15`. -/
def REQ_SMALL : Nat := 15

/-- Upper bound of the large class: `REQ_LARGE = 180`. -/
def REQ_LARGE : Nat := 180

/-- The macro `MAX(a, b)`, that is `((a) > (b) ? (a) : (b))`. -/
def MAX (a b : Nat) : Nat := if a > b then a else b

/-- The constant `BLOCK_PAYLOAD_SMALL = MAX(REQ_SMALL, PTR_SZ)`. -/
def BLOCK_PAYLOAD_SMALL (c : Config) : Nat := MAX REQ_SMALL c.PTR_SZ

/-- The constant `BLOCK_PAYLOAD_LARGE = MAX(REQ_LARGE, PTR_SZ)`. -/
def BLOCK_PAYLOAD_LARGE (c : Config) : Nat := MAX REQ_LARGE c.PTR_SZ

/-- The constant `BLOCK_WORDS_SMALL = (BLOCK_PAYLOAD_SMALL + PTR_SZ - 1) / PTR_SZ`. -/
def BLOCK_WORDS_SMALL (c : Config) : Nat :=
  (BLOCK_PAYLOAD_SMALL c + c.PTR_SZ - 1) / c.PTR_SZ

/-- The constant `BLOCK_WORDS_LARGE = (BLOCK_PAYLOAD_LARGE + PTR_SZ - 1) / PTR_SZ`. -/
def BLOCK_WORDS_LARGE (c : Config) : Nat :=
  (BLOCK_PAYLOAD_LARGE c + c.PTR_SZ - 1) / c.PTR_SZ

/-- The constant `BLOCK_BYTES_SMALL = BLOCK_WORDS_SMALL * PTR_SZ`. -/
def BLOCK_BYTES_SMALL (c : Config) : Nat := BLOCK_WORDS_SMALL c * c.PTR_SZ

/-- The constant `BLOCK_BYTES_LARGE = BLOCK_WORDS_LARGE * PTR_SZ`. -/
def BLOCK_BYTES_LARGE (c : Config) : Nat := BLOCK_WORDS_LARGE c * c.PTR_SZ

/-- The constant `POOL_SMALL_WORDS = SMALL_POOL_BLOCKS * BLOCK_WORDS_SMALL`. -/
def POOL_SMALL_WORDS (c : Config) : Nat := c.SMALL_POOL_BLOCKS * BLOCK_WORDS_SMALL c

/-- The constant `POOL_LARGE_WORDS = LARGE_POOL_BLOCKS * BLOCK_WORDS_LARGE`. -/
def POOL_LARGE_WORDS (c : Config) : Nat := c.LARGE_POOL_BLOCKS * BLOCK_WORDS_LARGE c

/-- Number of values of `uintptr_t` and of `size_t`: `2 ^ (8 * PTR_SZ)`. -/
def WORD_MOD (c : Config) : Nat := 2 ^ (8 * c.PTR_SZ)

/-! ## 2. State -/

/-- The mutable state of the module: the memory (the word stored at each
address) and the three static variables. -/
structure State where
  /-- The pointer-sized word stored at each address. -/
  mem : Nat → Nat
  /-- Head of the small free list (`0` is `NULL`). -/
  free_small : Nat
  /-- Head of the large free list (`0` is `NULL`). -/
  free_large : Nat
  /-- The flag `pools_inited`. -/
  pools_inited : Bool

/-- The state at program start: static storage is zero-initialised, both heads
are `NULL` and the flag is `false`. -/
def State.initial : State :=
  { mem := fun _ => 0, free_small := 0, free_large := 0, pools_inited := false }

/-! ## 3. Helper functions of the source -/

/-- The function `pool_small_begin`. -/
def pool_small_begin (c : Config) : Nat := c.pool_small

/-- The function `pool_small_size_bytes`: a `size_t` product. -/
def pool_small_size_bytes (c : Config) : Nat :=
  (POOL_SMALL_WORDS c * c.PTR_SZ) % WORD_MOD c

/-- The function `pool_large_begin`. -/
def pool_large_begin (c : Config) : Nat := c.pool_large

/-- The function `pool_large_size_bytes`: a `size_t` product. -/
def pool_large_size_bytes (c : Config) : Nat :=
  (POOL_LARGE_WORDS c * c.PTR_SZ) % WORD_MOD c

/-- The function `ptr_in_pool_and_aligned`: the sum `b + pool_bytes` is an
unsigned sum and wraps around. -/
def ptr_in_pool_and_aligned (c : Config) (ptr pool_begin pool_bytes block_bytes : Nat) :
    Bool :=
  let p := ptr
  let b := pool_begin
  if p < b ∨ p ≥ (b + pool_bytes) % WORD_MOD c then false
  else (p - b) % block_bytes == 0

/-! ## 4. Initialisation -/

/-- One `for` loop of `init_pools`: for `i = 0 .. N-1` store into the first word
of block `i` the address of block `i + 1`, or `NULL` for the last block. -/
def init_loop (base N B : Nat) (mem : Nat → Nat) : Nat → Nat :=
  (List.range N).foldl
    (fun m i => Function.update m (base + i * B)
      (if i + 1 < N then base + (i + 1) * B else 0))
    mem

/-- The function `init_pools`. -/
def init_pools (c : Config) (s : State) : State :=
  if s.pools_inited then s
  else
    let mem1 := init_loop c.pool_small c.SMALL_POOL_BLOCKS (BLOCK_BYTES_SMALL c) s.mem
    let mem2 := init_loop c.pool_large c.LARGE_POOL_BLOCKS (BLOCK_BYTES_LARGE c) mem1
    { mem := mem2, free_small := c.pool_small, free_large := c.pool_large,
      pools_inited := true }

/-! ## 5. `malloc` and `free` -/

/-- The function `malloc`: the returned pointer and the new state. -/
def malloc (c : Config) (s : State) (size : Nat) : Nat × State :=
  let s := if !s.pools_inited then init_pools c s else s
  let size := if size = 0 then 1 else size
  if size ≤ REQ_SMALL then
    if s.free_small = 0 then (0, s)
    else (s.free_small, { s with free_small := s.mem s.free_small })
  else if size ≤ REQ_LARGE then
    if s.free_large = 0 then (0, s)
    else (s.free_large, { s with free_large := s.mem s.free_large })
  else (0, s)

/-- The function `free`. -/
def free (c : Config) (s : State) (ptr : Nat) : State :=
  if ptr = 0 then s
  else if !s.pools_inited then s
  else if ptr_in_pool_and_aligned c ptr (pool_small_begin c) (pool_small_size_bytes c)
      (BLOCK_BYTES_SMALL c) then
    { s with mem := Function.update s.mem ptr s.free_small, free_small := ptr }
  else if ptr_in_pool_and_aligned c ptr (pool_large_begin c) (pool_large_size_bytes c)
      (BLOCK_BYTES_LARGE c) then
    { s with mem := Function.update s.mem ptr s.free_large, free_large := ptr }
  else s

/-! ## 6. Debug probe -/

/-- One `while (p) { ++count; p = *p; }` loop of `custom_alloc_debug_print`,
run for at most `fuel` iterations; `none` when the walk has not reached `NULL`
by then. -/
def count_loop (mem : Nat → Nat) : Nat → Nat → Nat → Option Nat
  | fuel, p, count =>
    if p = 0 then some count
    else match fuel with
      | 0 => none
      | fuel + 1 => count_loop mem fuel (mem p) (count + 1)

/-- The two counts printed by `custom_alloc_debug_print`. -/
def custom_alloc_debug_print (fuel : Nat) (s : State) : Option (Nat × Nat) :=
  match count_loop s.mem fuel s.free_small 0, count_loop s.mem fuel s.free_large 0 with
  | some a, some b => some (a, b)
  | _, _ => none

/-- The nodes visited by the walk of a free list from `p`, in order. -/
def free_list (mem : Nat → Nat) : Nat → Nat → Option (List Nat)
  | fuel, p =>
    if p = 0 then some []
    else match fuel with
      | 0 => none
      | fuel + 1 => (free_list mem fuel (mem p)).map (fun l => p :: l)

/-! ## 7. Sequences of calls -/

/-- A sequence of `malloc` calls with the given sizes: the returned pointers, in
call order, and the final state. -/
def mallocs (c : Config) : State → List Nat → List Nat × State
  | s, [] => ([], s)
  | s, size :: rest =>
    let r := malloc c s size
    let rs := mallocs c r.2 rest
    (r.1 :: rs.1, rs.2)

/-- A sequence of `free` calls with the given pointers, in order. -/
def frees (c : Config) : State → List Nat → State
  | s, [] => s
  | s, p :: rest => frees c (free c s p) rest

/-- A call of the public interface. -/
inductive Call where
  | allocate (size : Nat)
  | release (ptr : Nat)
  | store (ptr val : Nat)
  deriving DecidableEq

/-- The caller stores the word `val` at the address `ptr`: the effect on the
first word of a block of any write the caller makes into that block. -/
def State.store (s : State) (ptr val : Nat) : State :=
  { s with mem := Function.update s.mem ptr val }

/-- Running a sequence of calls and caller stores. -/
def run (c : Config) : State → List Call → State
  | s, [] => s
  | s, Call.allocate size :: rest => run c (malloc c s size).2 rest
  | s, Call.release p :: rest => run c (free c s p) rest
  | s, Call.store p v :: rest => run c (s.store p v) rest

/-- The default build on a 64-bit target, with the two arrays placed one after
the other. -/
def cfg64 : Config :=
  { PTR_SZ := 8, SMALL_POOL_BLOCKS := 1024, LARGE_POOL_BLOCKS := 128,
    pool_small := 4096, pool_large := 20480 }

/-- A small build (the block counts are overridable macros). -/
def cfgTiny : Config :=
  { PTR_SZ := 8, SMALL_POOL_BLOCKS := 3, LARGE_POOL_BLOCKS := 2,
    pool_small := 4096, pool_large := 8192 }

/-- A sequence of calls that obeys the client contract on `cfgTiny`; the caller
writes into the block it holds. -/
def callsTiny : List Call :=
  [Call.allocate 15, Call.store 4096 12345, Call.allocate 180, Call.release 4096,
    Call.allocate 1, Call.release 8192, Call.release 0, Call.allocate 0]

/-- A sequence of calls on `cfgTiny` with a release before initialisation, a
foreign pointer, a misaligned pointer, an oversized request and a caller store;
every release that `free` accepts is of a held block. -/
def callsLenient : List Call :=
  [Call.release 4096, Call.allocate 15, Call.store 4096 777777, Call.release 5,
    Call.release 4100, Call.allocate 200, Call.allocate 16, Call.release 8193,
    Call.release 4096, Call.allocate 1]

/-- A double free on `cfgTiny`: the block is released twice, handed out again,
written by the caller that now holds it, and handed out once more. -/
def callsDouble : List Call :=
  [Call.allocate 15, Call.release 4096, Call.release 4096, Call.allocate 15,
    Call.store 4096 777777, Call.allocate 15]

/-- The caller writes into the block it has just been given. -/
def callsWrite : List Call :=
  [Call.allocate 15, Call.store 4096 777777]

/-- An initialised state whose small list is empty and whose large list is not. -/
def stSmallEmpty : State :=
  { mem := fun _ => 0, free_small := 0, free_large := 8192, pools_inited := true }

/-- An initialised state with both lists non-empty. -/
def stBoth : State :=
  { mem := fun a => if a = 4096 then 4112 else 0, free_small := 4096, free_large := 8192,
    pools_inited := true }

/-- What the C implementation guarantees about the parameters: a pointer has a
positive size, an array has at least one element, an object does not live at the
null address, an object together with its one-past-the-end address lies inside
the address space, and two distinct objects do not overlap. -/
def Config.WF (c : Config) : Prop :=
  0 < c.PTR_SZ ∧ 0 < c.SMALL_POOL_BLOCKS ∧ 0 < c.LARGE_POOL_BLOCKS ∧
  0 < c.pool_small ∧ 0 < c.pool_large ∧
  c.pool_small + POOL_SMALL_WORDS c * c.PTR_SZ < WORD_MOD c ∧
  c.pool_large + POOL_LARGE_WORDS c * c.PTR_SZ < WORD_MOD c ∧
  (c.pool_small + POOL_SMALL_WORDS c * c.PTR_SZ ≤ c.pool_large ∨
    c.pool_large + POOL_LARGE_WORDS c * c.PTR_SZ ≤ c.pool_small)

instance (c : Config) : Decidable c.WF := by
  unfold Config.WF
  infer_instance

/-- The block starts of the small pool, in ascending order. -/
def small_blocks (c : Config) : List Nat :=
  (List.range c.SMALL_POOL_BLOCKS).map (fun i => c.pool_small + i * BLOCK_BYTES_SMALL c)

/-- The block starts of the large pool, in ascending order. -/
def large_blocks (c : Config) : List Nat :=
  (List.range c.LARGE_POOL_BLOCKS).map (fun i => c.pool_large + i * BLOCK_BYTES_LARGE c)

/-- The test made by `free` for the small pool. -/
def in_small (c : Config) (p : Nat) : Bool :=
  ptr_in_pool_and_aligned c p (pool_small_begin c) (pool_small_size_bytes c)
    (BLOCK_BYTES_SMALL c)

/-- The test made by `free` for the large pool. -/
def in_large (c : Config) (p : Nat) : Bool :=
  ptr_in_pool_and_aligned c p (pool_large_begin c) (pool_large_size_bytes c)
    (BLOCK_BYTES_LARGE c)

/-- The two block classes, each with its own pool and free list. -/
inductive Pool where
  | small
  | large
  deriving DecidableEq

/-- The head of the free list of a pool. -/
def State.head (s : State) : Pool → Nat
  | Pool.small => s.free_small
  | Pool.large => s.free_large

/-- The block starts of a pool, in ascending order. -/
def pool_blocks (c : Config) : Pool → List Nat
  | Pool.small => small_blocks c
  | Pool.large => large_blocks c

/-- The pool from which `malloc` serves a request of the given size, if any:
the branch its size dispatch takes. -/
def size_class (size : Nat) : Option Pool :=
  let size := if size = 0 then 1 else size
  if size ≤ REQ_SMALL then some Pool.small
  else if size ≤ REQ_LARGE then some Pool.large
  else none

/-- The pool onto whose list `free` pushes a pointer once the allocator is
initialised, if any: the branch its address dispatch takes. -/
def release_class (c : Config) (ptr : Nat) : Option Pool :=
  if ptr = 0 then none
  else if in_small c ptr then some Pool.small
  else if in_large c ptr then some Pool.large
  else none

/-- The number of blocks of a pool. -/
def block_count (c : Config) : Pool → Nat
  | Pool.small => c.SMALL_POOL_BLOCKS
  | Pool.large => c.LARGE_POOL_BLOCKS

/-- The state with the head of one free list replaced. -/
def State.set_head (s : State) : Pool → Nat → State
  | Pool.small, v => { s with free_small := v }
  | Pool.large, v => { s with free_large := v }

/-- The push performed by `free` on the list of a pool: the old head is stored
in the first word of the block, which becomes the head. -/
def State.push (s : State) : Pool → Nat → State
  | Pool.small, p => { s with mem := Function.update s.mem p s.free_small, free_small := p }
  | Pool.large, p => { s with mem := Function.update s.mem p s.free_large, free_large := p }

/-- A chain of free blocks: starting at `h`, following the first word of each
block visits exactly the addresses of the list, none of them null, and arrives
at `t`. -/
def isSeg (mem : Nat → Nat) : Nat → List Nat → Nat → Prop
  | h, [], t => h = t
  | h, a :: l, t => h = a ∧ a ≠ 0 ∧ isSeg mem (mem a) l t

/-- The address of the first block of a pool. -/
def pool_base (c : Config) : Pool → Nat
  | Pool.small => c.pool_small
  | Pool.large => c.pool_large

/-- The block size of a pool in bytes. -/
def block_bytes (c : Config) : Pool → Nat
  | Pool.small => BLOCK_BYTES_SMALL c
  | Pool.large => BLOCK_BYTES_LARGE c

/-- The word that `init_pools` stores in block `i`. -/
def next_of (base N B i : Nat) : Nat := if i + 1 < N then base + (i + 1) * B else 0

/-- The head of the chain from block `k` on: the address of block `k`, or null
past the last block. -/
def head_of (base N B k : Nat) : Nat := if k < N then base + k * B else 0

/-- The block size in bytes that the constants `BLOCK_PAYLOAD_*`,
`BLOCK_WORDS_*` and `BLOCK_BYTES_*` compute from a requested payload `REQ` and
the pointer size `W`. -/
def block_bytes_of (REQ W : Nat) : Nat := ((MAX REQ W + W - 1) / W) * W

/-- The node reached from `h` after `n` steps of the walk `p = *p` of the debug
probe, which stops at null. -/
def nth_node (mem : Nat → Nat) : Nat → Nat → Nat
  | 0, h => h
  | n + 1, h => if h = 0 then 0 else nth_node mem n (mem h)

/-- The function `free` with its two pool tests exchanged, the large pool
first: the variant against which the order of the tests is compared. -/
def free_large_first (c : Config) (s : State) (ptr : Nat) : State :=
  if ptr = 0 then s
  else if !s.pools_inited then s
  else if ptr_in_pool_and_aligned c ptr (pool_large_begin c) (pool_large_size_bytes c)
      (BLOCK_BYTES_LARGE c) then
    { s with mem := Function.update s.mem ptr s.free_large, free_large := ptr }
  else if ptr_in_pool_and_aligned c ptr (pool_small_begin c) (pool_small_size_bytes c)
      (BLOCK_BYTES_SMALL c) then
    { s with mem := Function.update s.mem ptr s.free_small, free_small := ptr }
  else s

/-- The caller's set of held blocks after a `malloc` that returned `r`. -/
def hold (held : List Nat) (r : Nat) : List Nat := if r = 0 then held else r :: held

/-- Running a sequence of calls while recording the blocks the caller holds:
those returned by `malloc` and not released since. -/
def run_held (c : Config) : State → List Nat → List Call → State × List Nat
  | s, held, [] => (s, held)
  | s, held, Call.allocate size :: rest =>
    run_held c (malloc c s size).2 (hold held (malloc c s size).1) rest
  | s, held, Call.release p :: rest => run_held c (free c s p) (held.erase p) rest
  | s, held, Call.store p v :: rest => run_held c (s.store p v) held rest

/-- The client contract on a sequence of calls: `free` is only called with null
or with a block the caller holds at that moment, and the caller only writes
into blocks it holds. -/
def obeys (c : Config) : State → List Nat → List Call → Bool
  | _, _, [] => true
  | s, held, Call.allocate size :: rest =>
    obeys c (malloc c s size).2 (hold held (malloc c s size).1) rest
  | s, held, Call.release p :: rest =>
    (decide (p = 0) || decide (p ∈ held)) && obeys c (free c s p) (held.erase p) rest
  | s, held, Call.store p v :: rest => decide (p ∈ held) && obeys c (s.store p v) held rest

/-- A weaker discipline than the client contract: any size may be requested and
any pointer may be released, except that a release which `free` accepts (the
allocator is initialised and the pointer is classified into a pool) must be of
a block the caller holds; the caller only writes into blocks it holds. -/
def tolerated (c : Config) : State → List Nat → List Call → Bool
  | _, _, [] => true
  | s, held, Call.allocate size :: rest =>
    tolerated c (malloc c s size).2 (hold held (malloc c s size).1) rest
  | s, held, Call.release p :: rest =>
    (!s.pools_inited || decide (release_class c p = none) || decide (p ∈ held)) &&
      tolerated c (free c s p) (held.erase p) rest
  | s, held, Call.store p v :: rest =>
    decide (p ∈ held) && tolerated c (s.store p v) held rest

/-- The ownership invariant of an initialised allocator: each pool has a
null-terminated free list made of blocks of that pool, and the two free lists
and the held blocks together hold every block exactly once. -/
def Owned (c : Config) (s : State) (held : List Nat) : Prop :=
  ∃ F : Pool → List Nat,
    (∀ P, isSeg s.mem (s.head P) (F P) 0) ∧
    (∀ P, ∀ a ∈ F P, a ∈ pool_blocks c P) ∧
    (F Pool.small ++ F Pool.large ++ held).Perm (small_blocks c ++ large_blocks c)

/-- The ownership invariant at any time: before initialisation nothing is held
and both heads are null. -/
def Quiescent (c : Config) (s : State) (held : List Nat) : Prop :=
  (s.pools_inited = true ∧ Owned c s held) ∨
  (s.pools_inited = false ∧ held = [] ∧ s.free_small = 0 ∧ s.free_large = 0)

/-! ## 8. Size dispatch -/

theorem malloc_of_inited (c : Config) (s : State) (size : Nat)
    (hinit : s.pools_inited = true) :
    malloc c s size =
      if max size 1 ≤ REQ_SMALL then
        if s.free_small = 0 then (0, s)
        else (s.free_small, { s with free_small := s.mem s.free_small })
      else if max size 1 ≤ REQ_LARGE then
        if s.free_large = 0 then (0, s)
        else (s.free_large, { s with free_large := s.mem s.free_large })
      else (0, s) := by
  have hmax : (if size = 0 then 1 else size) = max size 1 := by
    split
    · subst size; rfl
    · omega
  obtain ⟨m, fs, fl, pi⟩ := s
  simp only at hinit
  subst hinit
  simp only [malloc, hmax]
  rfl

theorem malloc_of_not_inited (c : Config) (s : State) (size : Nat)
    (hinit : s.pools_inited = false) :
    malloc c s size = malloc c (init_pools c s) size := by
  simp [malloc, hinit, init_pools]

theorem init_pools_of_inited (c : Config) (s : State) (hinit : s.pools_inited = true) :
    init_pools c s = s := by
  simp [init_pools, hinit]

/-- C1: size dispatch of `malloc` on an initialised state. With `s = max size 1`:
a request with `s ≤ REQ_SMALL` and a non-null small head returns the old small
head and the new small head is the first word of that block; a request with
`REQ_SMALL < s ≤ REQ_LARGE` and a non-null large head does the same on the large
list; a request with `s > REQ_LARGE` returns null. In particular `malloc(15)`
draws from small, `malloc(16)` and `malloc(180)` from large, and `malloc(181)`
returns null. -/
theorem C1_size_dispatch (c : Config) (s : State) (size : Nat)
    (hinit : s.pools_inited = true) :
    (max size 1 ≤ REQ_SMALL → s.free_small ≠ 0 →
      (malloc c s size).1 = s.free_small ∧
      (malloc c s size).2.free_small = s.mem s.free_small) ∧
    (REQ_SMALL < max size 1 → max size 1 ≤ REQ_LARGE → s.free_large ≠ 0 →
      (malloc c s size).1 = s.free_large ∧
      (malloc c s size).2.free_large = s.mem s.free_large) ∧
    (REQ_LARGE < max size 1 → (malloc c s size).1 = 0) ∧
    (s.free_small ≠ 0 → (malloc c s 15).1 = s.free_small) ∧
    (s.free_large ≠ 0 → (malloc c s 16).1 = s.free_large ∧
      (malloc c s 180).1 = s.free_large) ∧
    (malloc c s 181).1 = 0 := by
  refine ⟨?_, ?_, ?_, ?_, ?_, ?_⟩
  · intro h1 h2
    rw [malloc_of_inited c s size hinit]
    simp [h1, h2]
  · intro h1 h2 h3
    rw [malloc_of_inited c s size hinit]
    have : ¬ max size 1 ≤ REQ_SMALL := by omega
    simp [this, h2, h3]
  · intro h1
    rw [malloc_of_inited c s size hinit]
    have h2 : ¬ max size 1 ≤ REQ_SMALL := by unfold REQ_SMALL; unfold REQ_LARGE at h1; omega
    have h3 : ¬ max size 1 ≤ REQ_LARGE := by omega
    simp [h2, h3]
  · intro h
    rw [malloc_of_inited c s 15 hinit]
    simp [REQ_SMALL, h]
  · intro h
    rw [malloc_of_inited c s 16 hinit, malloc_of_inited c s 180 hinit]
    simp [REQ_SMALL, REQ_LARGE, h]
  · rw [malloc_of_inited c s 181 hinit]
    simp [REQ_SMALL, REQ_LARGE]

/-- C1 at the state `stBoth` and the size `7`. -/
theorem C1_size_dispatch_witness :
    stBoth.pools_inited = true ∧
    ((max 7 1 ≤ REQ_SMALL → stBoth.free_small ≠ 0 →
      (malloc cfgTiny stBoth 7).1 = stBoth.free_small ∧
      (malloc cfgTiny stBoth 7).2.free_small = stBoth.mem stBoth.free_small) ∧
    (REQ_SMALL < max 7 1 → max 7 1 ≤ REQ_LARGE → stBoth.free_large ≠ 0 →
      (malloc cfgTiny stBoth 7).1 = stBoth.free_large ∧
      (malloc cfgTiny stBoth 7).2.free_large = stBoth.mem stBoth.free_large) ∧
    (REQ_LARGE < max 7 1 → (malloc cfgTiny stBoth 7).1 = 0) ∧
    (stBoth.free_small ≠ 0 → (malloc cfgTiny stBoth 15).1 = stBoth.free_small) ∧
    (stBoth.free_large ≠ 0 → (malloc cfgTiny stBoth 16).1 = stBoth.free_large ∧
      (malloc cfgTiny stBoth 180).1 = stBoth.free_large) ∧
    (malloc cfgTiny stBoth 181).1 = 0) :=
  ⟨rfl, C1_size_dispatch cfgTiny stBoth 7 rfl⟩

/-- C2: no cross-class fallback. On an initialised state in which the free list
selected by the request size is empty, `malloc` returns null and leaves the whole
state unchanged, whatever the other list holds. -/
theorem C2_no_cross_class_fallback (c : Config) (s : State) (size : Nat)
    (hinit : s.pools_inited = true)
    (hsel : (max size 1 ≤ REQ_SMALL ∧ s.free_small = 0) ∨
      (REQ_SMALL < max size 1 ∧ max size 1 ≤ REQ_LARGE ∧ s.free_large = 0)) :
    malloc c s size = (0, s) := by
  rw [malloc_of_inited c s size hinit]
  rcases hsel with ⟨h1, h2⟩ | ⟨h1, h2, h3⟩
  · simp [h1, h2]
  · have : ¬ max size 1 ≤ REQ_SMALL := by omega
    simp [this, h2, h3]

/-- C2 at the state `stSmallEmpty` (small list empty, large list non-empty) and
the size `15`. -/
theorem C2_no_cross_class_fallback_witness :
    stSmallEmpty.pools_inited = true ∧
    ((max 15 1 ≤ REQ_SMALL ∧ stSmallEmpty.free_small = 0) ∨
      (REQ_SMALL < max 15 1 ∧ max 15 1 ≤ REQ_LARGE ∧ stSmallEmpty.free_large = 0)) ∧
    stSmallEmpty.free_large ≠ 0 ∧
    malloc cfgTiny stSmallEmpty 15 = (0, stSmallEmpty) :=
  ⟨rfl, Or.inl ⟨by decide, rfl⟩, by decide,
    C2_no_cross_class_fallback cfgTiny stSmallEmpty 15 rfl (Or.inl ⟨by decide, rfl⟩)⟩

/-- C3 (as amended): a request above `REQ_LARGE` returns null in every state and
its only effect is the lazy initialisation: the new state is `init_pools` of the
old one. On an initialised state the state is therefore unchanged, and so are
the counts of the debug probe. -/
theorem C3_oversized_refusal (c : Config) (s : State) (size fuel : Nat)
    (hsize : REQ_LARGE < size) :
    (malloc c s size).1 = 0 ∧
    (malloc c s size).2 = init_pools c s ∧
    (s.pools_inited = true →
      (malloc c s size).2 = s ∧
      custom_alloc_debug_print fuel (malloc c s size).2 = custom_alloc_debug_print fuel s) := by
  have key : ∀ t : State, t.pools_inited = true → malloc c t size = (0, t) := by
    intro t ht
    rw [malloc_of_inited c t size ht]
    have h2 : ¬ max size 1 ≤ REQ_SMALL := by unfold REQ_SMALL; unfold REQ_LARGE at hsize; omega
    have h3 : ¬ max size 1 ≤ REQ_LARGE := by omega
    simp [h2, h3]
  cases hs : s.pools_inited with
  | true =>
    rw [key s hs, init_pools_of_inited c s hs]
    simp
  | false =>
    rw [malloc_of_not_inited c s size hs]
    have : (init_pools c s).pools_inited = true := by simp [init_pools, hs]
    rw [key _ this]
    simp

/-- C3 at the initialised state `stBoth` and the size `181`. -/
theorem C3_oversized_refusal_witness :
    REQ_LARGE < 181 ∧
    (malloc cfgTiny stBoth 181).1 = 0 ∧
    (malloc cfgTiny stBoth 181).2 = init_pools cfgTiny stBoth ∧
    (stBoth.pools_inited = true →
      (malloc cfgTiny stBoth 181).2 = stBoth ∧
      custom_alloc_debug_print 5 (malloc cfgTiny stBoth 181).2 =
        custom_alloc_debug_print 5 stBoth) :=
  ⟨by decide, C3_oversized_refusal cfgTiny stBoth 181 5 (by decide)⟩

/-- C3 as stated fails on the never-initialised state: `malloc(181)` returns null
but runs the initialiser first, so both heads change from null to the pool
bases. -/
theorem C3_counterexample :
    ¬ ((malloc cfg64 State.initial 181).1 = 0 ∧
       (malloc cfg64 State.initial 181).2.free_small = State.initial.free_small ∧
       (malloc cfg64 State.initial 181).2.free_large = State.initial.free_large) := by
  decide

/-! ## 9. Block arithmetic and classification -/

theorem MAX_ge_right (a b : Nat) : b ≤ MAX a b := by
  unfold MAX
  split <;> omega

theorem words_pos (x W : Nat) (hW : 0 < W) (hx : W ≤ x) : 0 < (x + W - 1) / W := by
  apply Nat.div_pos _ hW
  omega

theorem BLOCK_BYTES_SMALL_pos (c : Config) (hW : 0 < c.PTR_SZ) : 0 < BLOCK_BYTES_SMALL c := by
  unfold BLOCK_BYTES_SMALL BLOCK_WORDS_SMALL
  exact Nat.mul_pos (words_pos _ _ hW (MAX_ge_right _ _)) hW

theorem BLOCK_BYTES_LARGE_pos (c : Config) (hW : 0 < c.PTR_SZ) : 0 < BLOCK_BYTES_LARGE c := by
  unfold BLOCK_BYTES_LARGE BLOCK_WORDS_LARGE
  exact Nat.mul_pos (words_pos _ _ hW (MAX_ge_right _ _)) hW

theorem pool_small_bytes_eq (c : Config) :
    POOL_SMALL_WORDS c * c.PTR_SZ = c.SMALL_POOL_BLOCKS * BLOCK_BYTES_SMALL c := by
  unfold POOL_SMALL_WORDS BLOCK_BYTES_SMALL
  exact Nat.mul_assoc _ _ _

theorem pool_large_bytes_eq (c : Config) :
    POOL_LARGE_WORDS c * c.PTR_SZ = c.LARGE_POOL_BLOCKS * BLOCK_BYTES_LARGE c := by
  unfold POOL_LARGE_WORDS BLOCK_BYTES_LARGE
  exact Nat.mul_assoc _ _ _

/-- Without wrap-around the range and alignment test accepts exactly the block
starts `b + i * B`, `i < N`. -/
theorem ptr_in_pool_iff (c : Config) (p b N B : Nat) (hB : 0 < B)
    (hfit : b + N * B < WORD_MOD c) :
    ptr_in_pool_and_aligned c p b ((N * B) % WORD_MOD c) B = true ↔
      ∃ i, i < N ∧ p = b + i * B := by
  have h1 : (N * B) % WORD_MOD c = N * B := Nat.mod_eq_of_lt (by omega)
  have h2 : (b + N * B) % WORD_MOD c = b + N * B := Nat.mod_eq_of_lt hfit
  unfold ptr_in_pool_and_aligned
  simp only [h1, h2]
  constructor
  · intro h
    by_cases hr : p < b ∨ p ≥ b + N * B
    · simp [hr] at h
    · simp only [hr, if_false, beq_iff_eq] at h
      have hle : b ≤ p := by omega
      have hlt : p - b < N * B := by omega
      refine ⟨(p - b) / B, ?_, ?_⟩
      · exact (Nat.div_lt_iff_lt_mul hB).mpr hlt
      · have := Nat.div_mul_cancel (Nat.dvd_of_mod_eq_zero h)
        omega
  · rintro ⟨i, hi, rfl⟩
    have hlt : i * B < N * B := Nat.mul_lt_mul_of_pos_right hi hB
    have hr : ¬ (b + i * B < b ∨ b + i * B ≥ b + N * B) := by omega
    simp only [hr, if_false, beq_iff_eq, Nat.add_sub_cancel_left]
    exact Nat.mul_mod_left i B

theorem in_small_iff (c : Config) (hc : c.WF) (p : Nat) :
    in_small c p = true ↔ p ∈ small_blocks c := by
  obtain ⟨hW, _, _, _, _, hfit, _, _⟩ := hc
  unfold in_small pool_small_size_bytes pool_small_begin
  rw [pool_small_bytes_eq] at hfit ⊢
  rw [ptr_in_pool_iff c p _ _ _ (BLOCK_BYTES_SMALL_pos c hW) hfit]
  simp only [small_blocks, List.mem_map, List.mem_range]
  constructor
  · rintro ⟨i, hi, rfl⟩
    exact ⟨i, hi, rfl⟩
  · rintro ⟨i, hi, rfl⟩
    exact ⟨i, hi, rfl⟩

theorem in_large_iff (c : Config) (hc : c.WF) (p : Nat) :
    in_large c p = true ↔ p ∈ large_blocks c := by
  obtain ⟨hW, _, _, _, _, _, hfit, _⟩ := hc
  unfold in_large pool_large_size_bytes pool_large_begin
  rw [pool_large_bytes_eq] at hfit ⊢
  rw [ptr_in_pool_iff c p _ _ _ (BLOCK_BYTES_LARGE_pos c hW) hfit]
  simp only [large_blocks, List.mem_map, List.mem_range]
  constructor
  · rintro ⟨i, hi, rfl⟩
    exact ⟨i, hi, rfl⟩
  · rintro ⟨i, hi, rfl⟩
    exact ⟨i, hi, rfl⟩

theorem small_blocks_ne_zero (c : Config) (hc : c.WF) (p : Nat) (hp : p ∈ small_blocks c) :
    p ≠ 0 := by
  obtain ⟨_, _, _, hb, _⟩ := hc
  simp only [small_blocks, List.mem_map, List.mem_range] at hp
  obtain ⟨i, _, rfl⟩ := hp
  omega

theorem large_blocks_ne_zero (c : Config) (hc : c.WF) (p : Nat) (hp : p ∈ large_blocks c) :
    p ≠ 0 := by
  obtain ⟨_, _, _, _, hb, _⟩ := hc
  simp only [large_blocks, List.mem_map, List.mem_range] at hp
  obtain ⟨i, _, rfl⟩ := hp
  omega

/-- The two pools have no block start in common. -/
theorem small_large_disjoint (c : Config) (hc : c.WF) (p : Nat)
    (hs : p ∈ small_blocks c) (hl : p ∈ large_blocks c) : False := by
  obtain ⟨hW, _, _, _, _, _, _, hdis⟩ := hc
  rw [pool_small_bytes_eq, pool_large_bytes_eq] at hdis
  simp only [small_blocks, large_blocks, List.mem_map, List.mem_range] at hs hl
  obtain ⟨i, hi, rfl⟩ := hs
  obtain ⟨j, hj, hij⟩ := hl
  have h1 : i * BLOCK_BYTES_SMALL c < c.SMALL_POOL_BLOCKS * BLOCK_BYTES_SMALL c :=
    Nat.mul_lt_mul_of_pos_right hi (BLOCK_BYTES_SMALL_pos c hW)
  have h2 : j * BLOCK_BYTES_LARGE c < c.LARGE_POOL_BLOCKS * BLOCK_BYTES_LARGE c :=
    Nat.mul_lt_mul_of_pos_right hj (BLOCK_BYTES_LARGE_pos c hW)
  omega

theorem blocks_nodup (b N B : Nat) (hB : 0 < B) :
    ((List.range N).map (fun i => b + i * B)).Nodup := by
  apply List.Nodup.map _ (List.nodup_range N)
  intro i j hij
  have : i * B = j * B := by simpa using hij
  exact Nat.eq_of_mul_eq_mul_right hB this

theorem small_blocks_nodup (c : Config) (hc : c.WF) : (small_blocks c).Nodup :=
  blocks_nodup _ _ _ (BLOCK_BYTES_SMALL_pos c hc.1)

theorem large_blocks_nodup (c : Config) (hc : c.WF) : (large_blocks c).Nodup :=
  blocks_nodup _ _ _ (BLOCK_BYTES_LARGE_pos c hc.1)

/-! ## 10. Chains of free blocks -/

theorem isSeg_append (mem : Nat → Nat) (l1 l2 : List Nat) (h t : Nat) :
    isSeg mem h (l1 ++ l2) t ↔ ∃ m, isSeg mem h l1 m ∧ isSeg mem m l2 t := by
  induction l1 generalizing h with
  | nil => simp [isSeg]
  | cons a l ih =>
    show (h = a ∧ a ≠ 0 ∧ isSeg mem (mem a) (l ++ l2) t) ↔
      ∃ m, (h = a ∧ a ≠ 0 ∧ isSeg mem (mem a) l m) ∧ isSeg mem m l2 t
    rw [ih]
    constructor
    · rintro ⟨h1, h2, m, h3, h4⟩
      exact ⟨m, ⟨h1, h2, h3⟩, h4⟩
    · rintro ⟨m, ⟨h1, h2, h3⟩, h4⟩
      exact ⟨h1, h2, m, h3, h4⟩

theorem isSeg_congr (mem mem2 : Nat → Nat) (l : List Nat) (h t : Nat)
    (heq : ∀ a ∈ l, mem2 a = mem a) (hseg : isSeg mem h l t) : isSeg mem2 h l t := by
  induction l generalizing h with
  | nil => exact hseg
  | cons a l ih =>
    obtain ⟨h1, h2, h3⟩ := hseg
    refine ⟨h1, h2, ?_⟩
    rw [heq a (List.mem_cons_self _ _)]
    exact ih _ (fun x hx => heq x (List.mem_cons_of_mem _ hx)) h3

theorem isSeg_update (mem : Nat → Nat) (l : List Nat) (h t p v : Nat)
    (hp : p ∉ l) (hseg : isSeg mem h l t) : isSeg (Function.update mem p v) h l t := by
  apply isSeg_congr mem _ l h t _ hseg
  intro a ha
  have : a ≠ p := fun e => hp (e ▸ ha)
  simp [Function.update, this]

theorem isSeg_ne_zero (mem : Nat → Nat) (l : List Nat) (h t : Nat)
    (hseg : isSeg mem h l t) : ∀ a ∈ l, a ≠ 0 := by
  induction l generalizing h with
  | nil => simp
  | cons a l ih =>
    obtain ⟨_, h2, h3⟩ := hseg
    intro x hx
    rcases List.mem_cons.mp hx with rfl | hx
    · exact h2
    · exact ih _ h3 x hx

/-- A null-terminated chain determines its list of nodes. -/
theorem isSeg_unique (mem : Nat → Nat) (l1 l2 : List Nat) (h : Nat)
    (h1 : isSeg mem h l1 0) (h2 : isSeg mem h l2 0) : l1 = l2 := by
  induction l1 generalizing h l2 with
  | nil =>
    cases l2 with
    | nil => rfl
    | cons b l2 =>
      obtain ⟨e, hb, _⟩ := h2
      exact absurd (e.symm.trans h1) hb
  | cons a l1 ih =>
    cases l2 with
    | nil =>
      obtain ⟨e, ha, _⟩ := h1
      exact absurd (e.symm.trans h2) ha
    | cons b l2 =>
      obtain ⟨e1, _, t1⟩ := h1
      obtain ⟨e2, _, t2⟩ := h2
      have hab : a = b := e1.symm.trans e2
      subst hab
      rw [ih l2 _ t1 t2]

/-- The walk of the debug probe over a null-terminated chain returns its nodes,
given fuel for each of them. -/
theorem free_list_of_isSeg (mem : Nat → Nat) (l : List Nat) (h fuel : Nat)
    (hseg : isSeg mem h l 0) (hfuel : l.length ≤ fuel) : free_list mem fuel h = some l := by
  induction l generalizing h fuel with
  | nil =>
    have : h = 0 := hseg
    subst this
    unfold free_list
    simp
  | cons a l ih =>
    obtain ⟨h1, h2, h3⟩ := hseg
    subst h1
    cases fuel with
    | zero => simp at hfuel
    | succ fuel =>
      unfold free_list
      simp only [h2, if_false]
      rw [ih _ fuel h3 (by simpa using hfuel)]
      rfl

/-- The count of the debug probe over a null-terminated chain is its length. -/
theorem count_loop_of_isSeg (mem : Nat → Nat) (l : List Nat) (h fuel k : Nat)
    (hseg : isSeg mem h l 0) (hfuel : l.length ≤ fuel) :
    count_loop mem fuel h k = some (k + l.length) := by
  induction l generalizing h fuel k with
  | nil =>
    have : h = 0 := hseg
    subst this
    unfold count_loop
    simp
  | cons a l ih =>
    obtain ⟨h1, h2, h3⟩ := hseg
    subst h1
    cases fuel with
    | zero => simp at hfuel
    | succ fuel =>
      unfold count_loop
      simp only [h2, if_false]
      rw [ih _ fuel (k + 1) h3 (by simpa using hfuel)]
      simp only [List.length_cons]
      congr 1
      omega

/-! ## 11. The initialiser -/

theorem init_fold_other (base N B : Nat) (mem : Nat → Nat) (n a : Nat)
    (h : ∀ i, i < n → a ≠ base + i * B) :
    (List.range n).foldl
      (fun m i => Function.update m (base + i * B)
        (if i + 1 < N then base + (i + 1) * B else 0)) mem a = mem a := by
  induction n with
  | zero => rfl
  | succ n ih =>
    rw [List.range_succ, List.foldl_append]
    simp only [List.foldl_cons, List.foldl_nil]
    rw [Function.update_noteq (h n (Nat.lt_succ_self n))]
    exact ih (fun i hi => h i (Nat.lt_succ_of_lt hi))

theorem init_fold_at (base N B : Nat) (hB : 0 < B) (mem : Nat → Nat) (n i : Nat)
    (hi : i < n) :
    (List.range n).foldl
      (fun m i => Function.update m (base + i * B)
        (if i + 1 < N then base + (i + 1) * B else 0)) mem (base + i * B) =
      next_of base N B i := by
  induction n with
  | zero => omega
  | succ n ih =>
    rw [List.range_succ, List.foldl_append]
    simp only [List.foldl_cons, List.foldl_nil]
    by_cases hin : i = n
    · subst hin
      rw [Function.update_same]
      rfl
    · have hne : base + i * B ≠ base + n * B := by
        intro e
        have : i * B = n * B := by omega
        exact hin (Nat.eq_of_mul_eq_mul_right hB this)
      rw [Function.update_noteq hne]
      exact ih (by omega)

theorem init_loop_other (base N B : Nat) (mem : Nat → Nat) (a : Nat)
    (h : ∀ i, i < N → a ≠ base + i * B) : init_loop base N B mem a = mem a :=
  init_fold_other base N B mem N a h

theorem init_loop_at (base N B : Nat) (hB : 0 < B) (mem : Nat → Nat) (i : Nat)
    (hi : i < N) : init_loop base N B mem (base + i * B) = next_of base N B i :=
  init_fold_at base N B hB mem N i hi

/-- A memory whose block `i` holds `next_of i` chains the blocks `k, .., k+n-1`
from the address of block `k` to the head of the chain from block `k + n`. -/
theorem isSeg_blocks (base N B : Nat) (hb : 0 < base) (mem : Nat → Nat)
    (hmem : ∀ i, i < N → mem (base + i * B) = next_of base N B i) (n k : Nat)
    (hkn : k + n ≤ N) :
    isSeg mem (head_of base N B k) ((List.range' k n).map (fun i => base + i * B))
      (head_of base N B (k + n)) := by
  induction n generalizing k with
  | zero => rfl
  | succ n ih =>
    have hk : k < N := by omega
    simp only [List.range', List.map_cons]
    refine ⟨by simp [head_of, hk], by omega, ?_⟩
    rw [hmem k hk]
    have e : next_of base N B k = head_of base N B (k + 1) := rfl
    rw [e]
    have := ih (k + 1) (by omega)
    have e2 : k + 1 + n = k + (n + 1) := by omega
    rw [e2] at this
    exact this

/-- The memory after `init_pools`, at a block start of the small pool. -/
theorem init_pools_mem_small (c : Config) (hc : c.WF) (s : State)
    (hs : s.pools_inited = false) (i : Nat) (hi : i < c.SMALL_POOL_BLOCKS) :
    (init_pools c s).mem (c.pool_small + i * BLOCK_BYTES_SMALL c) =
      next_of c.pool_small c.SMALL_POOL_BLOCKS (BLOCK_BYTES_SMALL c) i := by
  simp only [init_pools, hs, Bool.false_eq_true, if_false]
  have hmem : c.pool_small + i * BLOCK_BYTES_SMALL c ∈ small_blocks c := by
    simp only [small_blocks, List.mem_map, List.mem_range]
    exact ⟨i, hi, rfl⟩
  rw [init_loop_other]
  · exact init_loop_at _ _ _ (BLOCK_BYTES_SMALL_pos c hc.1) _ i hi
  · intro j hj e
    apply small_large_disjoint c hc _ hmem
    simp only [large_blocks, List.mem_map, List.mem_range]
    exact ⟨j, hj, e.symm⟩

/-- The memory after `init_pools`, at a block start of the large pool. -/
theorem init_pools_mem_large (c : Config) (hc : c.WF) (s : State)
    (hs : s.pools_inited = false) (i : Nat) (hi : i < c.LARGE_POOL_BLOCKS) :
    (init_pools c s).mem (c.pool_large + i * BLOCK_BYTES_LARGE c) =
      next_of c.pool_large c.LARGE_POOL_BLOCKS (BLOCK_BYTES_LARGE c) i := by
  simp only [init_pools, hs, Bool.false_eq_true, if_false]
  exact init_loop_at _ _ _ (BLOCK_BYTES_LARGE_pos c hc.1) _ i hi

theorem init_pools_heads (c : Config) (s : State) (hs : s.pools_inited = false) :
    (init_pools c s).free_small = c.pool_small ∧
    (init_pools c s).free_large = c.pool_large ∧
    (init_pools c s).pools_inited = true := by
  simp [init_pools, hs]

theorem head_of_zero (base N B : Nat) (hN : 0 < N) : head_of base N B 0 = base := by
  simp [head_of, hN]

/-- After `init_pools` the small free list is the list of all small blocks. -/
theorem init_pools_small_seg (c : Config) (hc : c.WF) (s : State)
    (hs : s.pools_inited = false) :
    isSeg (init_pools c s).mem (init_pools c s).free_small (small_blocks c) 0 := by
  have h := isSeg_blocks c.pool_small c.SMALL_POOL_BLOCKS (BLOCK_BYTES_SMALL c) hc.2.2.2.1
    (init_pools c s).mem (init_pools_mem_small c hc s hs) c.SMALL_POOL_BLOCKS 0 (by omega)
  rw [head_of_zero _ _ _ hc.2.1] at h
  rw [(init_pools_heads c s hs).1, small_blocks, List.range_eq_range']
  have e : head_of c.pool_small c.SMALL_POOL_BLOCKS (BLOCK_BYTES_SMALL c)
      (0 + c.SMALL_POOL_BLOCKS) = 0 := by simp [head_of]
  rw [e] at h
  exact h

/-- After `init_pools` the large free list is the list of all large blocks. -/
theorem init_pools_large_seg (c : Config) (hc : c.WF) (s : State)
    (hs : s.pools_inited = false) :
    isSeg (init_pools c s).mem (init_pools c s).free_large (large_blocks c) 0 := by
  have h := isSeg_blocks c.pool_large c.LARGE_POOL_BLOCKS (BLOCK_BYTES_LARGE c) hc.2.2.2.2.1
    (init_pools c s).mem (init_pools_mem_large c hc s hs) c.LARGE_POOL_BLOCKS 0 (by omega)
  rw [head_of_zero _ _ _ hc.2.2.1] at h
  rw [(init_pools_heads c s hs).2.1, large_blocks, List.range_eq_range']
  have e : head_of c.pool_large c.LARGE_POOL_BLOCKS (BLOCK_BYTES_LARGE c)
      (0 + c.LARGE_POOL_BLOCKS) = 0 := by simp [head_of]
  rw [e] at h
  exact h

/-- C4: initialisation populates both free lists completely and in ascending
address order. After `init_pools` on a never-initialised state, the small free
list read from its head is exactly `pool_small + i * BLOCK_BYTES_SMALL` for
`i = 0 .. N_S - 1`, ending in null, and the large one is exactly
`pool_large + i * BLOCK_BYTES_LARGE` for `i = 0 .. N_L - 1`; every block appears
once, the debug probe counts `N_S` and `N_L`, and at program start both heads
are null. -/
theorem C4_init_populates (c : Config) (s : State) (fuel : Nat) (hc : c.WF)
    (hs : s.pools_inited = false)
    (hfS : c.SMALL_POOL_BLOCKS ≤ fuel) (hfL : c.LARGE_POOL_BLOCKS ≤ fuel) :
    free_list (init_pools c s).mem fuel (init_pools c s).free_small =
      some ((List.range c.SMALL_POOL_BLOCKS).map
        (fun i => c.pool_small + i * BLOCK_BYTES_SMALL c)) ∧
    free_list (init_pools c s).mem fuel (init_pools c s).free_large =
      some ((List.range c.LARGE_POOL_BLOCKS).map
        (fun i => c.pool_large + i * BLOCK_BYTES_LARGE c)) ∧
    ((List.range c.SMALL_POOL_BLOCKS).map
      (fun i => c.pool_small + i * BLOCK_BYTES_SMALL c)).Nodup ∧
    ((List.range c.LARGE_POOL_BLOCKS).map
      (fun i => c.pool_large + i * BLOCK_BYTES_LARGE c)).Nodup ∧
    custom_alloc_debug_print fuel (init_pools c s) =
      some (c.SMALL_POOL_BLOCKS, c.LARGE_POOL_BLOCKS) ∧
    State.initial.pools_inited = false ∧
    State.initial.free_small = 0 ∧ State.initial.free_large = 0 := by
  have hS := init_pools_small_seg c hc s hs
  have hL := init_pools_large_seg c hc s hs
  have lS : (small_blocks c).length = c.SMALL_POOL_BLOCKS := by simp [small_blocks]
  have lL : (large_blocks c).length = c.LARGE_POOL_BLOCKS := by simp [large_blocks]
  refine ⟨?_, ?_, small_blocks_nodup c hc, large_blocks_nodup c hc, ?_, rfl, rfl, rfl⟩
  · exact free_list_of_isSeg _ (small_blocks c) _ fuel hS (by omega)
  · exact free_list_of_isSeg _ (large_blocks c) _ fuel hL (by omega)
  · unfold custom_alloc_debug_print
    rw [count_loop_of_isSeg _ _ _ fuel 0 hS (by omega),
      count_loop_of_isSeg _ _ _ fuel 0 hL (by omega), lS, lL]
    simp

/-- C4 on the default 64-bit build, from the state at program start. -/
theorem C4_init_populates_witness :
    cfg64.WF ∧ State.initial.pools_inited = false ∧
    cfg64.SMALL_POOL_BLOCKS ≤ 1024 ∧ cfg64.LARGE_POOL_BLOCKS ≤ 1024 ∧
    (free_list (init_pools cfg64 State.initial).mem 1024
        (init_pools cfg64 State.initial).free_small =
      some ((List.range cfg64.SMALL_POOL_BLOCKS).map
        (fun i => cfg64.pool_small + i * BLOCK_BYTES_SMALL cfg64)) ∧
    free_list (init_pools cfg64 State.initial).mem 1024
        (init_pools cfg64 State.initial).free_large =
      some ((List.range cfg64.LARGE_POOL_BLOCKS).map
        (fun i => cfg64.pool_large + i * BLOCK_BYTES_LARGE cfg64)) ∧
    ((List.range cfg64.SMALL_POOL_BLOCKS).map
      (fun i => cfg64.pool_small + i * BLOCK_BYTES_SMALL cfg64)).Nodup ∧
    ((List.range cfg64.LARGE_POOL_BLOCKS).map
      (fun i => cfg64.pool_large + i * BLOCK_BYTES_LARGE cfg64)).Nodup ∧
    custom_alloc_debug_print 1024 (init_pools cfg64 State.initial) =
      some (cfg64.SMALL_POOL_BLOCKS, cfg64.LARGE_POOL_BLOCKS) ∧
    State.initial.pools_inited = false ∧
    State.initial.free_small = 0 ∧ State.initial.free_large = 0) :=
  ⟨by decide, rfl, by decide, by decide,
    C4_init_populates cfg64 State.initial 1024 (by decide) rfl (by decide) (by decide)⟩

/-! ## 12. Popping along a chain -/

theorem mallocs_length (c : Config) (s : State) (l : List Nat) :
    (mallocs c s l).1.length = l.length := by
  induction l generalizing s with
  | nil => simp [mallocs]
  | cons z l ih => simp [mallocs, ih]

/-- A non-empty sequence of requests on a never-initialised state runs the
initialiser first. -/
theorem mallocs_of_not_inited (c : Config) (s : State) (szs : List Nat)
    (hs : s.pools_inited = false) (hne : szs ≠ []) :
    mallocs c s szs = mallocs c (init_pools c s) szs := by
  cases szs with
  | nil => exact absurd rfl hne
  | cons z zs => simp only [mallocs, malloc_of_not_inited c s z hs]

theorem small_class (z : Nat) (h : z ≤ REQ_SMALL) : max z 1 ≤ REQ_SMALL := by
  unfold REQ_SMALL at *
  omega

theorem large_class (z : Nat) (h : REQ_SMALL < z ∧ z ≤ REQ_LARGE) :
    REQ_SMALL < max z 1 ∧ max z 1 ≤ REQ_LARGE := by
  unfold REQ_SMALL REQ_LARGE at *
  omega

/-- Small requests on a null-terminated small free list `L` return its first
nodes in order, then null once it is exhausted; only the small head changes. -/
theorem mallocs_small_chain (c : Config) (szs : List Nat) (s : State) (L : List Nat)
    (hinit : s.pools_inited = true) (hseg : isSeg s.mem s.free_small L 0)
    (hsz : ∀ z ∈ szs, max z 1 ≤ REQ_SMALL) :
    ∃ t, mallocs c s szs =
        (L.take szs.length ++ List.replicate (szs.length - L.length) 0,
          { s with free_small := t }) ∧
      isSeg s.mem t (L.drop szs.length) 0 := by
  induction szs generalizing s L with
  | nil => exact ⟨s.free_small, by simp [mallocs], hseg⟩
  | cons z zs ih =>
    have hz : max z 1 ≤ REQ_SMALL := hsz z (List.mem_cons_self _ _)
    have hzs : ∀ x ∈ zs, max x 1 ≤ REQ_SMALL := fun x hx => hsz x (List.mem_cons_of_mem _ hx)
    cases L with
    | nil =>
      have h0 : s.free_small = 0 := hseg
      have hm : malloc c s z = (0, s) := by
        rw [malloc_of_inited c s z hinit]
        simp [hz, h0]
      obtain ⟨t, h1, h2⟩ := ih s [] hinit hseg hzs
      refine ⟨t, ?_, by simpa using h2⟩
      simp only [mallocs, hm, h1]
      simp [List.replicate_succ]
    | cons a L =>
      obtain ⟨e1, e2, e3⟩ := hseg
      have hm : malloc c s z = (a, { s with free_small := s.mem a }) := by
        rw [malloc_of_inited c s z hinit]
        simp [hz, e1, e2]
      obtain ⟨t, h1, h2⟩ := ih { s with free_small := s.mem a } L hinit e3 hzs
      refine ⟨t, ?_, by simpa using h2⟩
      simp only [mallocs, hm, h1]
      simp

/-- Large requests on a null-terminated large free list `L` return its first
nodes in order, then null once it is exhausted; only the large head changes. -/
theorem mallocs_large_chain (c : Config) (szs : List Nat) (s : State) (L : List Nat)
    (hinit : s.pools_inited = true) (hseg : isSeg s.mem s.free_large L 0)
    (hsz : ∀ z ∈ szs, REQ_SMALL < max z 1 ∧ max z 1 ≤ REQ_LARGE) :
    ∃ t, mallocs c s szs =
        (L.take szs.length ++ List.replicate (szs.length - L.length) 0,
          { s with free_large := t }) ∧
      isSeg s.mem t (L.drop szs.length) 0 := by
  induction szs generalizing s L with
  | nil => exact ⟨s.free_large, by simp [mallocs], hseg⟩
  | cons z zs ih =>
    have hz := hsz z (List.mem_cons_self _ _)
    have hz1 : ¬ max z 1 ≤ REQ_SMALL := by omega
    have hzs : ∀ x ∈ zs, REQ_SMALL < max x 1 ∧ max x 1 ≤ REQ_LARGE :=
      fun x hx => hsz x (List.mem_cons_of_mem _ hx)
    cases L with
    | nil =>
      have h0 : s.free_large = 0 := hseg
      have hm : malloc c s z = (0, s) := by
        rw [malloc_of_inited c s z hinit]
        simp [hz1, hz.2, h0]
      obtain ⟨t, h1, h2⟩ := ih s [] hinit hseg hzs
      refine ⟨t, ?_, by simpa using h2⟩
      simp only [mallocs, hm, h1]
      simp [List.replicate_succ]
    | cons a L =>
      obtain ⟨e1, e2, e3⟩ := hseg
      have hm : malloc c s z = (a, { s with free_large := s.mem a }) := by
        rw [malloc_of_inited c s z hinit]
        simp [hz1, hz.2, e1, e2]
      obtain ⟨t, h1, h2⟩ := ih { s with free_large := s.mem a } L hinit e3 hzs
      refine ⟨t, ?_, by simpa using h2⟩
      simp only [mallocs, hm, h1]
      simp

theorem blocks_pairwise_lt (b N B : Nat) (hB : 0 < B) :
    ((List.range N).map (fun i => b + i * B)).Pairwise (fun x y => x < y) := by
  rw [List.pairwise_map]
  apply List.Pairwise.imp _ (List.pairwise_lt_range N)
  intro i j hij
  have : i * B < j * B := Nat.mul_lt_mul_of_pos_right hij hB
  omega

/-- C5: exhaustion from a fresh allocator. Starting from a never-initialised
state, `N_S + 1` requests of the small class return the small block starts
`pool_small + (k-1) * BLOCK_BYTES_SMALL` for `k = 1 .. N_S`, in this order, and
then null; `N_L + 1` requests of the large class return the large block starts
in order and then null. The block starts are non-null and strictly ascending,
hence pairwise distinct. -/
theorem C5_exhaustion (c : Config) (s : State) (ss ls : List Nat) (hc : c.WF)
    (hs : s.pools_inited = false)
    (hss : ∀ z ∈ ss, z ≤ REQ_SMALL) (hls : ∀ z ∈ ls, REQ_SMALL < z ∧ z ≤ REQ_LARGE)
    (hsl : ss.length = c.SMALL_POOL_BLOCKS + 1)
    (hll : ls.length = c.LARGE_POOL_BLOCKS + 1) :
    (mallocs c s ss).1 =
      (List.range c.SMALL_POOL_BLOCKS).map
        (fun i => c.pool_small + i * BLOCK_BYTES_SMALL c) ++ [0] ∧
    (mallocs c s ls).1 =
      (List.range c.LARGE_POOL_BLOCKS).map
        (fun i => c.pool_large + i * BLOCK_BYTES_LARGE c) ++ [0] ∧
    (∀ a ∈ (List.range c.SMALL_POOL_BLOCKS).map
        (fun i => c.pool_small + i * BLOCK_BYTES_SMALL c), a ≠ 0) ∧
    (∀ a ∈ (List.range c.LARGE_POOL_BLOCKS).map
        (fun i => c.pool_large + i * BLOCK_BYTES_LARGE c), a ≠ 0) ∧
    ((List.range c.SMALL_POOL_BLOCKS).map
        (fun i => c.pool_small + i * BLOCK_BYTES_SMALL c)).Pairwise (fun x y => x < y) ∧
    ((List.range c.LARGE_POOL_BLOCKS).map
        (fun i => c.pool_large + i * BLOCK_BYTES_LARGE c)).Pairwise (fun x y => x < y) := by
  have hi := (init_pools_heads c s hs).2.2
  have lS : (small_blocks c).length = c.SMALL_POOL_BLOCKS := by simp [small_blocks]
  have lL : (large_blocks c).length = c.LARGE_POOL_BLOCKS := by simp [large_blocks]
  refine ⟨?_, ?_, small_blocks_ne_zero c hc, large_blocks_ne_zero c hc,
    blocks_pairwise_lt _ _ _ (BLOCK_BYTES_SMALL_pos c hc.1),
    blocks_pairwise_lt _ _ _ (BLOCK_BYTES_LARGE_pos c hc.1)⟩
  · have hne : ss ≠ [] := by
      intro e
      simp [e] at hsl
    rw [mallocs_of_not_inited c s ss hs hne]
    obtain ⟨t, h1, _⟩ := mallocs_small_chain c ss (init_pools c s) (small_blocks c) hi
      (init_pools_small_seg c hc s hs) (fun z hz => small_class z (hss z hz))
    rw [h1, hsl, lS]
    have e1 : (small_blocks c).take (c.SMALL_POOL_BLOCKS + 1) = small_blocks c :=
      List.take_of_length_le (by omega)
    simp only [e1, Nat.add_sub_cancel_left, List.replicate_one]
    rfl
  · have hne : ls ≠ [] := by
      intro e
      simp [e] at hll
    rw [mallocs_of_not_inited c s ls hs hne]
    obtain ⟨t, h1, _⟩ := mallocs_large_chain c ls (init_pools c s) (large_blocks c) hi
      (init_pools_large_seg c hc s hs) (fun z hz => large_class z (hls z hz))
    rw [h1, hll, lL]
    have e1 : (large_blocks c).take (c.LARGE_POOL_BLOCKS + 1) = large_blocks c :=
      List.take_of_length_le (by omega)
    simp only [e1, Nat.add_sub_cancel_left, List.replicate_one]
    rfl

/-- C5 on the default 64-bit build: 1025 requests of one byte and 129 requests
of 180 bytes from the state at program start. -/
theorem C5_exhaustion_witness :
    cfg64.WF ∧ State.initial.pools_inited = false ∧
    (∀ z ∈ List.replicate 1025 1, z ≤ REQ_SMALL) ∧
    (∀ z ∈ List.replicate 129 180, REQ_SMALL < z ∧ z ≤ REQ_LARGE) ∧
    (List.replicate 1025 1).length = cfg64.SMALL_POOL_BLOCKS + 1 ∧
    (List.replicate 129 180).length = cfg64.LARGE_POOL_BLOCKS + 1 ∧
    ((mallocs cfg64 State.initial (List.replicate 1025 1)).1 =
      (List.range cfg64.SMALL_POOL_BLOCKS).map
        (fun i => cfg64.pool_small + i * BLOCK_BYTES_SMALL cfg64) ++ [0] ∧
    (mallocs cfg64 State.initial (List.replicate 129 180)).1 =
      (List.range cfg64.LARGE_POOL_BLOCKS).map
        (fun i => cfg64.pool_large + i * BLOCK_BYTES_LARGE cfg64) ++ [0] ∧
    (∀ a ∈ (List.range cfg64.SMALL_POOL_BLOCKS).map
        (fun i => cfg64.pool_small + i * BLOCK_BYTES_SMALL cfg64), a ≠ 0) ∧
    (∀ a ∈ (List.range cfg64.LARGE_POOL_BLOCKS).map
        (fun i => cfg64.pool_large + i * BLOCK_BYTES_LARGE cfg64), a ≠ 0) ∧
    ((List.range cfg64.SMALL_POOL_BLOCKS).map
        (fun i => cfg64.pool_small + i * BLOCK_BYTES_SMALL cfg64)).Pairwise
      (fun x y => x < y) ∧
    ((List.range cfg64.LARGE_POOL_BLOCKS).map
        (fun i => cfg64.pool_large + i * BLOCK_BYTES_LARGE cfg64)).Pairwise
      (fun x y => x < y)) :=
  have h1 : ∀ z ∈ List.replicate 1025 1, z ≤ REQ_SMALL := fun z hz => by
    rw [List.eq_of_mem_replicate hz]
    decide
  have h2 : ∀ z ∈ List.replicate 129 180, REQ_SMALL < z ∧ z ≤ REQ_LARGE := fun z hz => by
    rw [List.eq_of_mem_replicate hz]
    decide
  ⟨by decide, rfl, h1, h2, List.length_replicate _ _, List.length_replicate _ _,
    C5_exhaustion cfg64 State.initial (List.replicate 1025 1) (List.replicate 129 180)
      (by decide) rfl h1 h2 (List.length_replicate _ _) (List.length_replicate _ _)⟩

/-! ## 13. Release -/

theorem free_small_eq (c : Config) (s : State) (p : Nat) (hinit : s.pools_inited = true)
    (hp : p ≠ 0) (h : in_small c p = true) :
    free c s p = { s with mem := Function.update s.mem p s.free_small, free_small := p } := by
  unfold in_small at h
  simp [free, hp, hinit, h]

theorem free_large_eq (c : Config) (s : State) (p : Nat) (hinit : s.pools_inited = true)
    (hp : p ≠ 0) (h1 : in_small c p = false) (h2 : in_large c p = true) :
    free c s p = { s with mem := Function.update s.mem p s.free_large, free_large := p } := by
  unfold in_small at h1
  unfold in_large at h2
  simp [free, hp, hinit, h1, h2]

theorem free_null (c : Config) (s : State) : free c s 0 = s := by
  simp [free]

theorem free_of_not_inited (c : Config) (s : State) (p : Nat)
    (hinit : s.pools_inited = false) : free c s p = s := by
  simp [free, hinit]

theorem free_unclassified (c : Config) (s : State) (p : Nat)
    (h1 : in_small c p = false) (h2 : in_large c p = false) : free c s p = s := by
  unfold in_small at h1
  unfold in_large at h2
  simp [free, h1, h2]

theorem free_inited (c : Config) (s : State) (p : Nat) :
    (free c s p).pools_inited = s.pools_inited := by
  unfold free
  split
  · rfl
  · split
    · rfl
    · split
      · rfl
      · split <;> rfl

theorem malloc_inited (c : Config) (s : State) (size : Nat) :
    (malloc c s size).2.pools_inited = true := by
  cases hs : s.pools_inited with
  | true =>
    rw [malloc_of_inited c s size hs]
    split
    · split <;> simp [hs]
    · split
      · split <;> simp [hs]
      · simp [hs]
  | false =>
    have hi := (init_pools_heads c s hs).2.2
    rw [malloc_of_not_inited c s size hs, malloc_of_inited c _ size hi]
    split
    · split <;> simp [hi]
    · split
      · split <;> simp [hi]
      · simp [hi]

theorem in_large_not_small (c : Config) (hc : c.WF) (p : Nat) (h : in_large c p = true) :
    in_small c p = false := by
  cases hs : in_small c p with
  | false => rfl
  | true =>
    exact (small_large_disjoint c hc p ((in_small_iff c hc p).mp hs)
      ((in_large_iff c hc p).mp h)).elim

/-- The pointers returned by small requests from a never-initialised state are
null or small block starts, and the allocator is initialised afterwards. -/
theorem mallocs_small_fresh (c : Config) (hc : c.WF) (s : State) (ss : List Nat)
    (hs : s.pools_inited = false) (hss : ∀ z ∈ ss, max z 1 ≤ REQ_SMALL) (a : Nat)
    (ha : a ∈ (mallocs c s ss).1) (ha0 : a ≠ 0) :
    a ∈ small_blocks c ∧ (mallocs c s ss).2.pools_inited = true := by
  have hne : ss ≠ [] := by
    intro e
    simp [e, mallocs] at ha
  rw [mallocs_of_not_inited c s ss hs hne] at ha ⊢
  obtain ⟨t, h1, _⟩ := mallocs_small_chain c ss (init_pools c s) (small_blocks c)
    (init_pools_heads c s hs).2.2 (init_pools_small_seg c hc s hs) hss
  rw [h1] at ha ⊢
  refine ⟨?_, (init_pools_heads c s hs).2.2⟩
  rcases List.mem_append.mp ha with h | h
  · exact List.mem_of_mem_take h
  · exact absurd (List.eq_of_mem_replicate h) ha0

/-- The pointers returned by large requests from a never-initialised state are
null or large block starts, and the allocator is initialised afterwards. -/
theorem mallocs_large_fresh (c : Config) (hc : c.WF) (s : State) (ls : List Nat)
    (hs : s.pools_inited = false)
    (hls : ∀ z ∈ ls, REQ_SMALL < max z 1 ∧ max z 1 ≤ REQ_LARGE) (a : Nat)
    (ha : a ∈ (mallocs c s ls).1) (ha0 : a ≠ 0) :
    a ∈ large_blocks c ∧ (mallocs c s ls).2.pools_inited = true := by
  have hne : ls ≠ [] := by
    intro e
    simp [e, mallocs] at ha
  rw [mallocs_of_not_inited c s ls hs hne] at ha ⊢
  obtain ⟨t, h1, _⟩ := mallocs_large_chain c ls (init_pools c s) (large_blocks c)
    (init_pools_heads c s hs).2.2 (init_pools_large_seg c hc s hs) hls
  rw [h1] at ha ⊢
  refine ⟨?_, (init_pools_heads c s hs).2.2⟩
  rcases List.mem_append.mp ha with h | h
  · exact List.mem_of_mem_take h
  · exact absurd (List.eq_of_mem_replicate h) ha0

/-- A release into the small pool followed by a small request. -/
theorem free_malloc_small (c : Config) (s : State) (p z : Nat)
    (hinit : s.pools_inited = true) (hp0 : p ≠ 0) (hp : in_small c p = true)
    (hz : max z 1 ≤ REQ_SMALL) :
    (free c s p).free_small = p ∧ (free c s p).mem p = s.free_small ∧
    (malloc c (free c s p) z).1 = p ∧
    (malloc c (free c s p) z).2.free_small = s.free_small := by
  have hf := free_small_eq c s p hinit hp0 hp
  have hi : (free c s p).pools_inited = true := by rw [free_inited]; exact hinit
  rw [malloc_of_inited c _ z hi, hf]
  simp [hz, hp0]

/-- A release into the large pool followed by a large request. -/
theorem free_malloc_large (c : Config) (s : State) (p z : Nat)
    (hinit : s.pools_inited = true) (hp0 : p ≠ 0) (hp1 : in_small c p = false)
    (hp2 : in_large c p = true) (hz : REQ_SMALL < max z 1 ∧ max z 1 ≤ REQ_LARGE) :
    (free c s p).free_large = p ∧ (free c s p).mem p = s.free_large ∧
    (malloc c (free c s p) z).1 = p ∧
    (malloc c (free c s p) z).2.free_large = s.free_large := by
  have hf := free_large_eq c s p hinit hp0 hp1 hp2
  have hi : (free c s p).pools_inited = true := by rw [free_inited]; exact hinit
  have hz1 : ¬ max z 1 ≤ REQ_SMALL := by omega
  rw [malloc_of_inited c _ z hi, hf]
  simp [hz1, hz.2, hp0]

theorem size_class_small (z : Nat) :
    size_class z = some Pool.small ↔ max z 1 ≤ REQ_SMALL := by
  have hmax : (if z = 0 then 1 else z) = max z 1 := by
    split
    · subst z; rfl
    · omega
  simp only [size_class, hmax]
  split
  · simp [*]
  · split <;> simp [*]

theorem size_class_large (z : Nat) :
    size_class z = some Pool.large ↔ REQ_SMALL < max z 1 ∧ max z 1 ≤ REQ_LARGE := by
  have hmax : (if z = 0 then 1 else z) = max z 1 := by
    split
    · subst z; rfl
    · omega
  simp only [size_class, hmax]
  split
  · simp
    omega
  · split
    · simp
      omega
    · simp
      omega

theorem release_class_small (c : Config) (p : Nat) :
    release_class c p = some Pool.small ↔ p ≠ 0 ∧ in_small c p = true := by
  unfold release_class
  split
  · simp [*]
  · split
    · simp [*]
    · split <;> simp [*]

theorem release_class_large (c : Config) (p : Nat) :
    release_class c p = some Pool.large ↔
      p ≠ 0 ∧ in_small c p = false ∧ in_large c p = true := by
  unfold release_class
  split
  · simp [*]
  · split
    · simp [*]
    · split <;> simp [*]

/-- In a well-formed configuration `free` classifies exactly the block starts of
a pool into that pool. -/
theorem release_class_iff (c : Config) (hc : c.WF) (P : Pool) (p : Nat) :
    release_class c p = some P ↔ p ∈ pool_blocks c P := by
  cases P with
  | small =>
    rw [release_class_small, in_small_iff c hc]
    exact ⟨fun h => h.2, fun h => ⟨small_blocks_ne_zero c hc p h, h⟩⟩
  | large =>
    rw [release_class_large]
    constructor
    · rintro ⟨_, _, h⟩
      exact (in_large_iff c hc p).mp h
    · intro h
      have h2 := (in_large_iff c hc p).mpr h
      exact ⟨large_blocks_ne_zero c hc p h, in_large_not_small c hc p h2, h2⟩

/-- C6: release pushes at the head and the next allocation of that class returns
the released block. On an initialised state, for an address `p` that `free`
classifies into pool `P` and a size `z` that `malloc` serves from `P`: after
`free(p)` the head of `P` is `p` and the first word of `p` holds the previous
head; a following `malloc(z)` returns `p` and restores the head of `P`. In
particular, from a never-initialised state, after any sequence of requests of
class `P` (one request, or enough to exhaust the pool), releasing any non-null
pointer they returned makes the next request of class `P` return that pointer. -/
theorem C6_release_then_allocate (c : Config) (s : State) (P : Pool) (p z : Nat)
    (hinit : s.pools_inited = true) (hp : release_class c p = some P)
    (hz : size_class z = some P) :
    (free c s p).head P = p ∧ (free c s p).mem p = s.head P ∧
    (malloc c (free c s p) z).1 = p ∧
    (malloc c (free c s p) z).2.head P = s.head P ∧
    (c.WF → ∀ (s0 : State) (zs : List Nat) (a : Nat), s0.pools_inited = false →
      (∀ x ∈ zs, size_class x = some P) → a ∈ (mallocs c s0 zs).1 → a ≠ 0 →
      (malloc c (free c (mallocs c s0 zs).2 a) z).1 = a) := by
  cases P with
  | small =>
    have hz1 := (size_class_small z).mp hz
    obtain ⟨hp0, hp1⟩ := (release_class_small c p).mp hp
    obtain ⟨h1, h2, h3, h4⟩ := free_malloc_small c s p z hinit hp0 hp1 hz1
    refine ⟨h1, h2, h3, h4, ?_⟩
    intro hc s0 zs a hs0 hzs ha ha0
    obtain ⟨hb, hi⟩ := mallocs_small_fresh c hc s0 zs hs0
      (fun x hx => (size_class_small x).mp (hzs x hx)) a ha ha0
    exact (free_malloc_small c _ a z hi ha0 ((in_small_iff c hc a).mpr hb) hz1).2.2.1
  | large =>
    have hz1 := (size_class_large z).mp hz
    obtain ⟨hp0, hp1, hp2⟩ := (release_class_large c p).mp hp
    obtain ⟨h1, h2, h3, h4⟩ := free_malloc_large c s p z hinit hp0 hp1 hp2 hz1
    refine ⟨h1, h2, h3, h4, ?_⟩
    intro hc s0 zs a hs0 hzs ha ha0
    obtain ⟨hb, hi⟩ := mallocs_large_fresh c hc s0 zs hs0
      (fun x hx => (size_class_large x).mp (hzs x hx)) a ha ha0
    have hl := (in_large_iff c hc a).mpr hb
    exact (free_malloc_large c _ a z hi ha0 (in_large_not_small c hc a hl) hl hz1).2.2.1

/-- C6 on the default 64-bit build: the state after `malloc(15)` at program
start, the pointer that call returned, and the size 15. -/
theorem C6_release_then_allocate_witness :
    (malloc cfg64 State.initial 15).2.pools_inited = true ∧
    release_class cfg64 (malloc cfg64 State.initial 15).1 = some Pool.small ∧
    size_class 15 = some Pool.small ∧
    (malloc cfg64 (free cfg64 (malloc cfg64 State.initial 15).2
      (malloc cfg64 State.initial 15).1) 15).1 = (malloc cfg64 State.initial 15).1 ∧
    (malloc cfg64 State.initial 15).1 = 4096 :=
  ⟨by decide, by decide, by decide,
    (C6_release_then_allocate cfg64 (malloc cfg64 State.initial 15).2 Pool.small
      (malloc cfg64 State.initial 15).1 15 (by decide) (by decide) (by decide)).2.2.1,
    by decide⟩

/-! ## 14. Pushes and pops, for either pool -/

theorem pool_blocks_length (c : Config) (P : Pool) :
    (pool_blocks c P).length = block_count c P := by
  cases P <;> simp [pool_blocks, small_blocks, large_blocks, block_count]

theorem pool_blocks_nodup (c : Config) (hc : c.WF) (P : Pool) : (pool_blocks c P).Nodup := by
  cases P
  · exact small_blocks_nodup c hc
  · exact large_blocks_nodup c hc

theorem pool_blocks_ne_zero (c : Config) (hc : c.WF) (P : Pool) (p : Nat)
    (hp : p ∈ pool_blocks c P) : p ≠ 0 := by
  cases P
  · exact small_blocks_ne_zero c hc p hp
  · exact large_blocks_ne_zero c hc p hp

theorem pool_blocks_disjoint (c : Config) (hc : c.WF) (P Q : Pool) (hPQ : P ≠ Q) (p : Nat)
    (hP : p ∈ pool_blocks c P) (hQ : p ∈ pool_blocks c Q) : False := by
  cases P <;> cases Q
  · exact hPQ rfl
  · exact small_large_disjoint c hc p hP hQ
  · exact small_large_disjoint c hc p hQ hP
  · exact hPQ rfl

theorem free_eq_push (c : Config) (s : State) (P : Pool) (p : Nat)
    (hinit : s.pools_inited = true) (hp : release_class c p = some P) :
    free c s p = s.push P p := by
  cases P with
  | small =>
    obtain ⟨h0, h1⟩ := (release_class_small c p).mp hp
    exact free_small_eq c s p hinit h0 h1
  | large =>
    obtain ⟨h0, h1, h2⟩ := (release_class_large c p).mp hp
    exact free_large_eq c s p hinit h0 h1 h2

theorem push_head (s : State) (P : Pool) (p : Nat) : (s.push P p).head P = p := by
  cases P <;> rfl

theorem push_head_other (s : State) (P Q : Pool) (p : Nat) (h : Q ≠ P) :
    (s.push P p).head Q = s.head Q := by
  cases P <;> cases Q <;> first | rfl | exact absurd rfl h

theorem push_mem (s : State) (P : Pool) (p : Nat) :
    (s.push P p).mem = Function.update s.mem p (s.head P) := by
  cases P <;> rfl

theorem push_inited (s : State) (P : Pool) (p : Nat) :
    (s.push P p).pools_inited = s.pools_inited := by
  cases P <;> rfl

theorem set_head_head (s : State) (P : Pool) (v : Nat) : (s.set_head P v).head P = v := by
  cases P <;> rfl

theorem set_head_other (s : State) (P Q : Pool) (v : Nat) (h : Q ≠ P) :
    (s.set_head P v).head Q = s.head Q := by
  cases P <;> cases Q <;> first | rfl | exact absurd rfl h

theorem set_head_mem (s : State) (P : Pool) (v : Nat) : (s.set_head P v).mem = s.mem := by
  cases P <;> rfl

theorem set_head_inited (s : State) (P : Pool) (v : Nat) :
    (s.set_head P v).pools_inited = s.pools_inited := by
  cases P <;> rfl

/-- Requests of class `P` on a null-terminated free list `L` of `P` return its
first nodes in order, then null once it is exhausted; only the head of `P`
changes. -/
theorem mallocs_chain (c : Config) (P : Pool) (zs : List Nat) (s : State) (L : List Nat)
    (hinit : s.pools_inited = true) (hseg : isSeg s.mem (s.head P) L 0)
    (hzs : ∀ x ∈ zs, size_class x = some P) :
    ∃ t, mallocs c s zs =
        (L.take zs.length ++ List.replicate (zs.length - L.length) 0, s.set_head P t) ∧
      isSeg s.mem t (L.drop zs.length) 0 := by
  cases P with
  | small =>
    exact mallocs_small_chain c zs s L hinit hseg
      (fun x hx => (size_class_small x).mp (hzs x hx))
  | large =>
    exact mallocs_large_chain c zs s L hinit hseg
      (fun x hx => (size_class_large x).mp (hzs x hx))

/-- Releasing distinct addresses of pool `P` stacks them on the free list of `P`
in reverse order, in front of the old head; nothing else changes. -/
theorem frees_push (c : Config) (P : Pool) (ps : List Nat) (s : State)
    (hinit : s.pools_inited = true) (hcls : ∀ p ∈ ps, release_class c p = some P)
    (hnd : ps.Nodup) :
    (frees c s ps).pools_inited = true ∧
    (∀ Q, Q ≠ P → (frees c s ps).head Q = s.head Q) ∧
    (∀ a, a ∉ ps → (frees c s ps).mem a = s.mem a) ∧
    isSeg (frees c s ps).mem ((frees c s ps).head P) ps.reverse (s.head P) := by
  induction ps generalizing s with
  | nil => exact ⟨hinit, fun _ _ => rfl, fun _ _ => rfl, rfl⟩
  | cons p ps ih =>
    have hp := hcls p (List.mem_cons_self _ _)
    have hp0 : p ≠ 0 := by
      intro e
      simp [release_class, e] at hp
    obtain ⟨hpn, hnd2⟩ := List.nodup_cons.mp hnd
    have hf := free_eq_push c s P p hinit hp
    have hi : (s.push P p).pools_inited = true := by rw [push_inited]; exact hinit
    obtain ⟨i1, i2, i3, i4⟩ := ih (s.push P p) hi
      (fun q hq => hcls q (List.mem_cons_of_mem _ hq)) hnd2
    simp only [frees, hf]
    refine ⟨i1, ?_, ?_, ?_⟩
    · intro Q hQ
      rw [i2 Q hQ, push_head_other s P Q p hQ]
    · intro a ha
      have ha1 : a ≠ p := fun e => ha (e ▸ List.mem_cons_self _ _)
      have ha2 : a ∉ ps := fun h => ha (List.mem_cons_of_mem _ h)
      rw [i3 a ha2, push_mem, Function.update_noteq ha1]
    · rw [List.reverse_cons, isSeg_append]
      refine ⟨p, ?_, rfl, hp0, ?_⟩
      · rw [push_head] at i4
        exact i4
      · rw [i3 p hpn, push_mem, Function.update_same]
        rfl

/-- Releasing null pointers does nothing. -/
theorem frees_filter (c : Config) (ps : List Nat) (s : State) :
    frees c s ps = frees c s (ps.filter (fun p => p ≠ 0)) := by
  induction ps generalizing s with
  | nil => rfl
  | cons p ps ih =>
    by_cases hp : p = 0
    · subst hp
      simp only [frees, free_null]
      rw [ih]
      simp
    · have : (p :: ps).filter (fun p => p ≠ 0) = p :: ps.filter (fun p => p ≠ 0) := by
        simp [hp]
      rw [this]
      simp only [frees]
      exact ih _

theorem filter_results (L : List Nat) (n : Nat) (hL : ∀ a ∈ L, a ≠ 0) :
    (L ++ List.replicate n 0).filter (fun p => p ≠ 0) = L := by
  rw [List.filter_append]
  have h1 : L.filter (fun p => p ≠ 0) = L :=
    List.filter_eq_self.mpr (fun a ha => by simpa using hL a ha)
  have h2 : (List.replicate n 0).filter (fun p => p ≠ 0) = [] :=
    List.filter_eq_nil_iff.mpr (fun a ha => by simp [List.eq_of_mem_replicate ha])
  rw [h1, h2, List.append_nil]

/-- Requests of class `P` followed by the release, in any order, of the pointers
they returned: the released blocks are stacked in front of the rest of the free
list of `P`, and nothing outside the blocks handed out changes. -/
theorem alloc_release_chain (c : Config) (hc : c.WF) (P : Pool) (zs rel : List Nat)
    (s : State) (L : List Nat) (hinit : s.pools_inited = true)
    (hseg : isSeg s.mem (s.head P) L 0) (hL : ∀ a ∈ L, a ∈ pool_blocks c P)
    (hnd : L.Nodup) (hzs : ∀ x ∈ zs, size_class x = some P)
    (hrel : rel.Perm (mallocs c s zs).1) :
    (mallocs c s zs).1 = L.take zs.length ++ List.replicate (zs.length - L.length) 0 ∧
    (rel.filter (fun p => p ≠ 0)).Perm (L.take zs.length) ∧
    (frees c (mallocs c s zs).2 rel).pools_inited = true ∧
    (∀ Q, Q ≠ P → (frees c (mallocs c s zs).2 rel).head Q = s.head Q) ∧
    (∀ a, a ∉ L.take zs.length → (frees c (mallocs c s zs).2 rel).mem a = s.mem a) ∧
    isSeg (frees c (mallocs c s zs).2 rel).mem ((frees c (mallocs c s zs).2 rel).head P)
      ((rel.filter (fun p => p ≠ 0)).reverse ++ L.drop zs.length) 0 := by
  obtain ⟨t, h1, h2⟩ := mallocs_chain c P zs s L hinit hseg hzs
  rw [h1] at hrel ⊢
  have hL0 : ∀ a ∈ L.take zs.length, a ≠ 0 :=
    fun a ha => pool_blocks_ne_zero c hc P a (hL a (List.mem_of_mem_take ha))
  have hperm : (rel.filter (fun p => p ≠ 0)).Perm (L.take zs.length) := by
    have := List.Perm.filter (fun p => decide (p ≠ 0)) hrel
    rw [filter_results _ _ hL0] at this
    exact this
  have hmemf : ∀ a, a ∈ rel.filter (fun p => p ≠ 0) ↔ a ∈ L.take zs.length :=
    fun a => hperm.mem_iff
  have hndf : (rel.filter (fun p => p ≠ 0)).Nodup :=
    hperm.nodup_iff.mpr (List.Nodup.sublist (List.take_sublist _ _) hnd)
  have hcls : ∀ p ∈ rel.filter (fun p => p ≠ 0), release_class c p = some P :=
    fun p hp => (release_class_iff c hc P p).mpr
      (hL p (List.mem_of_mem_take ((hmemf p).mp hp)))
  have hi : (s.set_head P t).pools_inited = true := by rw [set_head_inited]; exact hinit
  obtain ⟨f1, f2, f3, f4⟩ := frees_push c P _ (s.set_head P t) hi hcls hndf
  simp only []
  rw [frees_filter]
  refine ⟨trivial, hperm, f1, ?_, ?_, ?_⟩
  · intro Q hQ
    rw [f2 Q hQ, set_head_other s P Q t hQ]
  · intro a ha
    rw [f3 a (fun h => ha ((hmemf a).mp h)), set_head_mem]
  · rw [isSeg_append]
    refine ⟨t, ?_, ?_⟩
    · rw [set_head_head] at f4
      exact f4
    · apply isSeg_congr s.mem _ _ _ _ _ h2
      intro a ha
      have hdis := List.disjoint_take_drop hnd (Nat.le_refl zs.length)
      rw [f3 a (fun h => hdis ((hmemf a).mp h) ha), set_head_mem]

/-- After `init_pools` the free list of each pool is the list of its blocks. -/
theorem init_pools_seg (c : Config) (hc : c.WF) (s : State) (hs : s.pools_inited = false)
    (P : Pool) : isSeg (init_pools c s).mem ((init_pools c s).head P) (pool_blocks c P) 0 := by
  cases P
  · exact init_pools_small_seg c hc s hs
  · exact init_pools_large_seg c hc s hs

/-- C7: LIFO reversal over `K` blocks. From a freshly initialised allocator, `K`
requests of class `P` with `K ≤ N_P` return the first `K` blocks of the pool;
when these are released in the order in which they were returned, the next `K`
requests of class `P` return the same addresses in reverse order. (A non-empty
sequence of requests at program start runs the initialiser itself.) -/
theorem C7_lifo_reversal (c : Config) (s : State) (P : Pool) (zs1 zs2 : List Nat)
    (hc : c.WF) (hs : s.pools_inited = false)
    (h1 : ∀ x ∈ zs1, size_class x = some P) (h2 : ∀ x ∈ zs2, size_class x = some P)
    (hK : zs1.length ≤ block_count c P) (hlen : zs2.length = zs1.length) :
    (mallocs c (init_pools c s) zs1).1 = (pool_blocks c P).take zs1.length ∧
    (mallocs c
      (frees c (mallocs c (init_pools c s) zs1).2 (mallocs c (init_pools c s) zs1).1)
      zs2).1 = (mallocs c (init_pools c s) zs1).1.reverse ∧
    (zs1 ≠ [] → mallocs c s zs1 = mallocs c (init_pools c s) zs1) := by
  have hi := (init_pools_heads c s hs).2.2
  have hlenL := pool_blocks_length c P
  obtain ⟨r1, r2, r3, _, _, r6⟩ := alloc_release_chain c hc P zs1
    (mallocs c (init_pools c s) zs1).1 (init_pools c s) (pool_blocks c P) hi
    (init_pools_seg c hc s hs P) (fun a ha => ha) (pool_blocks_nodup c hc P) h1
    (List.Perm.refl _)
  have e0 : zs1.length - (pool_blocks c P).length = 0 := by omega
  have hres : (mallocs c (init_pools c s) zs1).1 = (pool_blocks c P).take zs1.length := by
    rw [r1, e0]
    simp
  have hfil : (mallocs c (init_pools c s) zs1).1.filter (fun p => p ≠ 0) =
      (mallocs c (init_pools c s) zs1).1 := by
    rw [hres]
    exact List.filter_eq_self.mpr (fun a ha => by
      simpa using pool_blocks_ne_zero c hc P a (List.mem_of_mem_take ha))
  rw [hfil] at r6
  obtain ⟨t, m1, _⟩ := mallocs_chain c P zs2 _ _ r3 r6 h2
  refine ⟨hres, ?_, fun hne => mallocs_of_not_inited c s zs1 hs hne⟩
  rw [m1]
  have hl1 : (mallocs c (init_pools c s) zs1).1.reverse.length = zs1.length := by
    rw [List.length_reverse, mallocs_length]
  have e1 : zs2.length -
      ((mallocs c (init_pools c s) zs1).1.reverse ++
        (pool_blocks c P).drop zs1.length).length = 0 := by
    rw [List.length_append, hl1]
    omega
  rw [e1, hlen, List.take_append_of_le_length (by omega), List.take_of_length_le (by omega)]
  simp

/-- C7 on the default 64-bit build with ten small requests, as in `main`. -/
theorem C7_lifo_reversal_witness :
    cfg64.WF ∧ State.initial.pools_inited = false ∧
    (∀ x ∈ List.replicate 10 15, size_class x = some Pool.small) ∧
    (List.replicate 10 15).length ≤ block_count cfg64 Pool.small ∧
    (mallocs cfg64
      (frees cfg64 (mallocs cfg64 (init_pools cfg64 State.initial) (List.replicate 10 15)).2
        (mallocs cfg64 (init_pools cfg64 State.initial) (List.replicate 10 15)).1)
      (List.replicate 10 15)).1 =
      (mallocs cfg64 (init_pools cfg64 State.initial) (List.replicate 10 15)).1.reverse :=
  have h : ∀ x ∈ List.replicate 10 15, size_class x = some Pool.small := by decide
  ⟨by decide, rfl, h, by decide,
    (C7_lifo_reversal cfg64 State.initial Pool.small (List.replicate 10 15)
      (List.replicate 10 15) (by decide) rfl h h (by decide) rfl).2.1⟩

/-- After requests of class `P` on a fresh allocator and the release, in any
order, of what they returned, each pool has a null-terminated free list holding
all its blocks; the list of a pool other than `P` is untouched. -/
theorem alloc_release_fresh (c : Config) (hc : c.WF) (s : State) (P : Pool)
    (zs rel : List Nat) (hs : s.pools_inited = false)
    (hzs : ∀ x ∈ zs, size_class x = some P)
    (hrel : rel.Perm (mallocs c (init_pools c s) zs).1) (Q : Pool) :
    ∃ L, isSeg (frees c (mallocs c (init_pools c s) zs).2 rel).mem
        ((frees c (mallocs c (init_pools c s) zs).2 rel).head Q) L 0 ∧
      L.Perm (pool_blocks c Q) ∧ (Q ≠ P → L = pool_blocks c Q) := by
  have hi := (init_pools_heads c s hs).2.2
  obtain ⟨_, r2, _, r4, r5, r6⟩ := alloc_release_chain c hc P zs rel (init_pools c s)
    (pool_blocks c P) hi (init_pools_seg c hc s hs P) (fun a ha => ha)
    (pool_blocks_nodup c hc P) hzs hrel
  by_cases hQ : Q = P
  · subst hQ
    refine ⟨_, r6, ?_, fun h => absurd rfl h⟩
    have h1 := (List.reverse_perm (rel.filter (fun p => p ≠ 0))).trans r2
    have h2 := List.Perm.append_right ((pool_blocks c Q).drop zs.length) h1
    rw [List.take_append_drop] at h2
    exact h2
  · refine ⟨pool_blocks c Q, ?_, List.Perm.refl _, fun _ => rfl⟩
    rw [r4 Q hQ]
    apply isSeg_congr (init_pools c s).mem _ _ _ _ _ (init_pools_seg c hc s hs Q)
    intro a ha
    apply r5
    intro h
    exact pool_blocks_disjoint c hc Q P hQ a ha (List.mem_of_mem_take h)

/-- C8: allocate-then-release restores the free count. From a freshly
initialised allocator, after any number `K` of requests of class `P` (also more
than `N_P`, the surplus returning null) and the release of the `K` returned
values in any order, the free list of `P` holds every block of the pool exactly
once, so it has `N_P` entries, and the free list of the other class still holds
all of its blocks in their initial order; the debug probe reports `N_S` and
`N_L`. (A non-empty sequence of requests at program start runs the initialiser
itself.) -/
theorem C8_alloc_release_restores (c : Config) (s : State) (P : Pool) (zs rel : List Nat)
    (fuel : Nat) (hc : c.WF) (hs : s.pools_inited = false)
    (hzs : ∀ x ∈ zs, size_class x = some P)
    (hrel : rel.Perm (mallocs c (init_pools c s) zs).1)
    (hfS : c.SMALL_POOL_BLOCKS ≤ fuel) (hfL : c.LARGE_POOL_BLOCKS ≤ fuel) :
    (∃ L, free_list (frees c (mallocs c (init_pools c s) zs).2 rel).mem fuel
          ((frees c (mallocs c (init_pools c s) zs).2 rel).head P) = some L ∧
        L.Perm (pool_blocks c P) ∧ L.Nodup ∧ L.length = block_count c P) ∧
    (∀ Q, Q ≠ P →
      free_list (frees c (mallocs c (init_pools c s) zs).2 rel).mem fuel
        ((frees c (mallocs c (init_pools c s) zs).2 rel).head Q) =
          some (pool_blocks c Q)) ∧
    custom_alloc_debug_print fuel (frees c (mallocs c (init_pools c s) zs).2 rel) =
      some (c.SMALL_POOL_BLOCKS, c.LARGE_POOL_BLOCKS) ∧
    (zs ≠ [] → mallocs c s zs = mallocs c (init_pools c s) zs) := by
  have key := alloc_release_fresh c hc s P zs rel hs hzs hrel
  have hfuel : ∀ Q, block_count c Q ≤ fuel := by
    intro Q
    cases Q
    · exact hfS
    · exact hfL
  have hlen : ∀ (Q : Pool) (L : List Nat), L.Perm (pool_blocks c Q) →
      L.length = block_count c Q :=
    fun Q L h => by rw [h.length_eq, pool_blocks_length]
  refine ⟨?_, ?_, ?_, fun hne => mallocs_of_not_inited c s zs hs hne⟩
  · obtain ⟨L, k1, k2, _⟩ := key P
    have hl := hlen P L k2
    exact ⟨L, free_list_of_isSeg _ _ _ fuel k1 (by rw [hl]; exact hfuel P), k2,
      k2.nodup_iff.mpr (pool_blocks_nodup c hc P), hl⟩
  · intro Q hQ
    obtain ⟨L, k1, k2, k3⟩ := key Q
    have hl := hlen Q L k2
    rw [← k3 hQ]
    exact free_list_of_isSeg _ _ _ fuel k1 (by rw [hl]; exact hfuel Q)
  · obtain ⟨Ls, s1, s2, _⟩ := key Pool.small
    obtain ⟨Ll, l1, l2, _⟩ := key Pool.large
    have hs1 := hlen _ _ s2
    have hl1 := hlen _ _ l2
    unfold custom_alloc_debug_print
    have cs := count_loop_of_isSeg _ _ _ fuel 0 s1 (by rw [hs1]; exact hfS)
    have cl := count_loop_of_isSeg _ _ _ fuel 0 l1 (by rw [hl1]; exact hfL)
    simp only [State.head] at cs cl
    rw [cs, cl, hs1, hl1]
    simp [block_count]

/-- C8 on the default 64-bit build: ten small requests, as in `main`, released
in the reverse of the order in which they were returned. -/
theorem C8_alloc_release_restores_witness :
    cfg64.WF ∧ State.initial.pools_inited = false ∧
    (∀ x ∈ List.replicate 10 15, size_class x = some Pool.small) ∧
    cfg64.SMALL_POOL_BLOCKS ≤ 1024 ∧ cfg64.LARGE_POOL_BLOCKS ≤ 1024 ∧
    custom_alloc_debug_print 1024
      (frees cfg64 (mallocs cfg64 (init_pools cfg64 State.initial) (List.replicate 10 15)).2
        (mallocs cfg64 (init_pools cfg64 State.initial) (List.replicate 10 15)).1.reverse) =
      some (cfg64.SMALL_POOL_BLOCKS, cfg64.LARGE_POOL_BLOCKS) :=
  have h : ∀ x ∈ List.replicate 10 15, size_class x = some Pool.small := by decide
  ⟨by decide, rfl, h, by decide, by decide,
    (C8_alloc_release_restores cfg64 State.initial Pool.small (List.replicate 10 15)
      (mallocs cfg64 (init_pools cfg64 State.initial) (List.replicate 10 15)).1.reverse
      1024 (by decide) rfl h (List.reverse_perm _) (by decide) (by decide)).2.2.1⟩

/-! ## 15. Ownership under the client contract -/

theorem malloc_eq_pop (c : Config) (s : State) (P : Pool) (z : Nat)
    (hinit : s.pools_inited = true) (hz : size_class z = some P) :
    malloc c s z =
      if s.head P = 0 then (0, s) else (s.head P, s.set_head P (s.mem (s.head P))) := by
  rw [malloc_of_inited c s z hinit]
  cases P with
  | small =>
    have h := (size_class_small z).mp hz
    simp only [h, if_true]
    rfl
  | large =>
    have h := (size_class_large z).mp hz
    have h1 : ¬ max z 1 ≤ REQ_SMALL := by omega
    simp only [h1, h.2, if_true, if_false]
    rfl

theorem malloc_unserved (c : Config) (s : State) (z : Nat)
    (hinit : s.pools_inited = true) (hz : size_class z = none) : malloc c s z = (0, s) := by
  have hmax : (if z = 0 then 1 else z) = max z 1 := by
    split
    · subst z; rfl
    · omega
  rw [malloc_of_inited c s z hinit]
  simp only [size_class, hmax] at hz
  split
  · simp [*] at hz
  · split
    · simp [*] at hz
    · rfl

theorem all_blocks_nodup (c : Config) (hc : c.WF) :
    (small_blocks c ++ large_blocks c).Nodup := by
  rw [List.nodup_append]
  exact ⟨small_blocks_nodup c hc, large_blocks_nodup c hc,
    fun a h1 h2 => small_large_disjoint c hc a h1 h2⟩

theorem owned_nodup (c : Config) (hc : c.WF) (F : Pool → List Nat) (held : List Nat)
    (hperm : (F Pool.small ++ F Pool.large ++ held).Perm (small_blocks c ++ large_blocks c)) :
    (F Pool.small ++ F Pool.large ++ held).Nodup :=
  hperm.nodup_iff.mpr (all_blocks_nodup c hc)

/-- A block on a free list is not held. -/
theorem owned_not_held (c : Config) (hc : c.WF) (F : Pool → List Nat) (held : List Nat)
    (hperm : (F Pool.small ++ F Pool.large ++ held).Perm (small_blocks c ++ large_blocks c))
    (P : Pool) (a : Nat) (ha : a ∈ F P) : a ∉ held := by
  have hnd := owned_nodup c hc F held hperm
  rw [List.nodup_append] at hnd
  intro hh
  apply hnd.2.2 _ hh
  cases P
  · exact List.mem_append_left _ ha
  · exact List.mem_append_right _ ha

/-- A block is on at most one free list, and at most once. -/
theorem owned_lists (c : Config) (hc : c.WF) (F : Pool → List Nat) (held : List Nat)
    (hperm : (F Pool.small ++ F Pool.large ++ held).Perm (small_blocks c ++ large_blocks c))
    (P : Pool) : (F P).Nodup := by
  have hnd := owned_nodup c hc F held hperm
  rw [List.nodup_append] at hnd
  have h2 := hnd.1
  rw [List.nodup_append] at h2
  cases P
  · exact h2.1
  · exact h2.2.1

theorem held_is_block (c : Config) (F : Pool → List Nat) (held : List Nat)
    (hperm : (F Pool.small ++ F Pool.large ++ held).Perm (small_blocks c ++ large_blocks c))
    (a : Nat) (ha : a ∈ held) : ∃ P, a ∈ pool_blocks c P := by
  have : a ∈ small_blocks c ++ large_blocks c :=
    hperm.mem_iff.mp (List.mem_append_right _ ha)
  rcases List.mem_append.mp this with h | h
  · exact ⟨Pool.small, h⟩
  · exact ⟨Pool.large, h⟩

/-- A request keeps the ownership invariant and never returns a held block. -/
theorem owned_malloc (c : Config) (hc : c.WF) (s : State) (held : List Nat) (z : Nat)
    (hinit : s.pools_inited = true) (hown : Owned c s held) :
    Owned c (malloc c s z).2 (hold held (malloc c s z).1) ∧
    ((malloc c s z).1 ≠ 0 → (malloc c s z).1 ∉ held) := by
  obtain ⟨F, hF1, hF2, hF3⟩ := hown
  cases hz : size_class z with
  | none =>
    rw [malloc_unserved c s z hinit hz]
    exact ⟨⟨F, hF1, hF2, by simpa [hold] using hF3⟩, fun h => absurd rfl h⟩
  | some P =>
    rw [malloc_eq_pop c s P z hinit hz]
    have hseg := hF1 P
    cases hL : F P with
    | nil =>
      rw [hL] at hseg
      have h0 : s.head P = 0 := hseg
      simp only [h0, if_true]
      exact ⟨⟨F, hF1, hF2, by simpa [hold] using hF3⟩, fun h => absurd rfl h⟩
    | cons a L =>
      rw [hL] at hseg
      obtain ⟨e1, e2, e3⟩ := hseg
      have ha : a ∈ F P := by rw [hL]; exact List.mem_cons_self _ _
      have hne : s.head P ≠ 0 := by rw [e1]; exact e2
      rw [if_neg hne, e1]
      refine ⟨⟨Function.update F P L, ?_, ?_, ?_⟩, fun _ => owned_not_held c hc F held hF3 P a ha⟩
      · intro Q
        show isSeg (s.set_head P (s.mem a)).mem ((s.set_head P (s.mem a)).head Q) _ 0
        by_cases hQ : Q = P
        · subst hQ
          rw [Function.update_same, set_head_head, set_head_mem]
          exact e3
        · rw [Function.update_noteq hQ, set_head_other s P Q _ hQ, set_head_mem]
          exact hF1 Q
      · intro Q b hb
        by_cases hQ : Q = P
        · subst hQ
          rw [Function.update_same] at hb
          exact hF2 Q b (by rw [hL]; exact List.mem_cons_of_mem _ hb)
        · rw [Function.update_noteq hQ] at hb
          exact hF2 Q b hb
      · show (Function.update F P L Pool.small ++ Function.update F P L Pool.large ++
          hold held a).Perm _
        simp only [hold, e2, if_false]
        refine List.Perm.trans ?_ hF3
        rw [List.perm_iff_count]
        intro x
        cases P with
        | small =>
          rw [Function.update_same, Function.update_noteq (by decide), hL]
          simp only [List.count_append, List.count_cons]
          omega
        | large =>
          rw [Function.update_same, Function.update_noteq (by decide), hL]
          simp only [List.count_append, List.count_cons]
          omega

/-- A release that obeys the contract keeps the ownership invariant. -/
theorem owned_free (c : Config) (hc : c.WF) (s : State) (held : List Nat) (p : Nat)
    (hinit : s.pools_inited = true) (hown : Owned c s held) (hp : p = 0 ∨ p ∈ held) :
    Owned c (free c s p) (held.erase p) := by
  obtain ⟨F, hF1, hF2, hF3⟩ := hown
  by_cases hp0 : p = 0
  · subst hp0
    rw [free_null]
    have h0 : (0 : Nat) ∉ held := by
      intro h
      obtain ⟨P, hP⟩ := held_is_block c F held hF3 0 h
      exact pool_blocks_ne_zero c hc P 0 hP rfl
    rw [List.erase_of_not_mem h0]
    exact ⟨F, hF1, hF2, hF3⟩
  · have hph : p ∈ held := hp.resolve_left hp0
    obtain ⟨P, hP⟩ := held_is_block c F held hF3 p hph
    rw [free_eq_push c s P p hinit ((release_class_iff c hc P p).mpr hP)]
    have hnotin : ∀ Q, p ∉ F Q := fun Q h => owned_not_held c hc F held hF3 Q p h hph
    refine ⟨Function.update F P (p :: F P), ?_, ?_, ?_⟩
    · intro Q
      rw [push_mem]
      by_cases hQ : Q = P
      · subst hQ
        rw [Function.update_same, push_head]
        refine ⟨rfl, hp0, ?_⟩
        rw [Function.update_same]
        exact isSeg_update s.mem _ _ _ p _ (hnotin Q) (hF1 Q)
      · rw [Function.update_noteq hQ, push_head_other s P Q p hQ]
        exact isSeg_update s.mem _ _ _ p _ (hnotin Q) (hF1 Q)
    · intro Q b hb
      by_cases hQ : Q = P
      · subst hQ
        rw [Function.update_same] at hb
        rcases List.mem_cons.mp hb with rfl | hb
        · exact hP
        · exact hF2 Q b hb
      · rw [Function.update_noteq hQ] at hb
        exact hF2 Q b hb
    · refine List.Perm.trans ?_ hF3
      have hcount := List.perm_iff_count.mp (List.perm_cons_erase hph)
      rw [List.perm_iff_count]
      intro x
      have hx := hcount x
      simp only [List.count_cons] at hx
      cases P with
      | small =>
        rw [Function.update_same, Function.update_noteq (by decide)]
        simp only [List.count_append, List.count_cons]
        omega
      | large =>
        rw [Function.update_same, Function.update_noteq (by decide)]
        simp only [List.count_append, List.count_cons]
        omega

/-- The initialiser establishes the ownership invariant with nothing held. -/
theorem owned_init (c : Config) (hc : c.WF) (s : State) (hs : s.pools_inited = false) :
    Owned c (init_pools c s) [] :=
  ⟨pool_blocks c, fun P => init_pools_seg c hc s hs P, fun _ _ h => h, by
    simp only [pool_blocks, List.append_nil]
    exact List.Perm.refl _⟩

theorem quiescent_malloc (c : Config) (hc : c.WF) (s : State) (held : List Nat) (z : Nat)
    (hq : Quiescent c s held) :
    Quiescent c (malloc c s z).2 (hold held (malloc c s z).1) ∧
    ((malloc c s z).1 ≠ 0 → (malloc c s z).1 ∉ held) := by
  rcases hq with ⟨hinit, hown⟩ | ⟨hinit, hh, _, _⟩
  · obtain ⟨h1, h2⟩ := owned_malloc c hc s held z hinit hown
    exact ⟨Or.inl ⟨malloc_inited c s z, h1⟩, h2⟩
  · subst hh
    rw [malloc_of_not_inited c s z hinit]
    obtain ⟨h1, h2⟩ := owned_malloc c hc (init_pools c s) [] z
      (init_pools_heads c s hinit).2.2 (owned_init c hc s hinit)
    exact ⟨Or.inl ⟨malloc_inited c _ z, h1⟩, h2⟩

theorem quiescent_free (c : Config) (hc : c.WF) (s : State) (held : List Nat) (p : Nat)
    (hq : Quiescent c s held) (hp : p = 0 ∨ p ∈ held) :
    Quiescent c (free c s p) (held.erase p) := by
  rcases hq with ⟨hinit, hown⟩ | ⟨hinit, hh, h1, h2⟩
  · exact Or.inl ⟨by rw [free_inited]; exact hinit, owned_free c hc s held p hinit hown hp⟩
  · subst hh
    rw [free_of_not_inited c s p hinit]
    exact Or.inr ⟨hinit, rfl, h1, h2⟩

theorem store_head (s : State) (p v : Nat) (P : Pool) : (s.store p v).head P = s.head P := by
  cases P <;> rfl

/-- A caller store into a held block keeps the ownership invariant: a held
block is on no free list. -/
theorem owned_store (c : Config) (hc : c.WF) (s : State) (held : List Nat) (p v : Nat)
    (hown : Owned c s held) (hp : p ∈ held) : Owned c (s.store p v) held := by
  obtain ⟨F, hF1, hF2, hF3⟩ := hown
  refine ⟨F, ?_, hF2, hF3⟩
  intro P
  rw [store_head]
  exact isSeg_update s.mem _ _ _ p v
    (fun h => owned_not_held c hc F held hF3 P p h hp) (hF1 P)

theorem quiescent_store (c : Config) (hc : c.WF) (s : State) (held : List Nat) (p v : Nat)
    (hq : Quiescent c s held) (hp : p ∈ held) : Quiescent c (s.store p v) held := by
  rcases hq with ⟨hinit, hown⟩ | ⟨_, hh, _, _⟩
  · exact Or.inl ⟨hinit, owned_store c hc s held p v hown hp⟩
  · subst hh
    exact absurd hp (List.not_mem_nil _)

/-- The ownership invariant holds after every sequence of calls that obeys the
client contract. -/
theorem quiescent_run (c : Config) (hc : c.WF) (cs : List Call) (s : State)
    (held : List Nat) (hq : Quiescent c s held) (hob : obeys c s held cs = true) :
    Quiescent c (run_held c s held cs).1 (run_held c s held cs).2 := by
  induction cs generalizing s held with
  | nil => exact hq
  | cons call cs ih =>
    cases call with
    | allocate z =>
      simp only [obeys] at hob
      simp only [run_held]
      exact ih _ _ (quiescent_malloc c hc s held z hq).1 hob
    | release p =>
      simp only [obeys, Bool.and_eq_true, Bool.or_eq_true, decide_eq_true_eq] at hob
      simp only [run_held]
      exact ih _ _ (quiescent_free c hc s held p hq hob.1) hob.2
    | store p v =>
      simp only [obeys, Bool.and_eq_true, decide_eq_true_eq] at hob
      simp only [run_held]
      exact ih _ _ (quiescent_store c hc s held p v hq hob.1) hob.2

/-- A run of requests keeps the invariant, and the caller then holds, on top of
what it held, the non-null pointers returned. -/
theorem quiescent_mallocs (c : Config) (hc : c.WF) (zs : List Nat) (s : State)
    (held : List Nat) (hq : Quiescent c s held) :
    Quiescent c (mallocs c s zs).2
      (((mallocs c s zs).1.filter (fun p => p ≠ 0)).reverse ++ held) := by
  induction zs generalizing s held with
  | nil => exact hq
  | cons z zs ih =>
    have h1 := (quiescent_malloc c hc s held z hq).1
    have h2 := ih (malloc c s z).2 (hold held (malloc c s z).1) h1
    simp only [mallocs]
    by_cases h0 : (malloc c s z).1 = 0
    · simp only [hold, h0, if_true] at h2
      simpa [h0] using h2
    · simp only [hold, h0, if_false] at h2
      simpa [h0] using h2

theorem quiescent_held_nodup (c : Config) (hc : c.WF) (s : State) (held : List Nat)
    (hq : Quiescent c s held) : held.Nodup := by
  rcases hq with ⟨_, F, _, _, hF3⟩ | ⟨_, hh, _, _⟩
  · have hnd := owned_nodup c hc F held hF3
    rw [List.nodup_append] at hnd
    exact hnd.2.1
  · subst hh
    exact List.nodup_nil

/-- Under the invariant both free lists are null-terminated chains that avoid
the held blocks. -/
theorem quiescent_lists (c : Config) (hc : c.WF) (s : State) (held : List Nat)
    (hq : Quiescent c s held) (P : Pool) :
    ∃ L, isSeg s.mem (s.head P) L 0 ∧ L.length ≤ block_count c P ∧ L.Nodup ∧
      (∀ a ∈ L, a ∈ pool_blocks c P) ∧ ∀ a ∈ held, a ∉ L := by
  rcases hq with ⟨_, F, hF1, hF2, hF3⟩ | ⟨_, _, h1, h2⟩
  · have hnd := owned_lists c hc F held hF3 P
    refine ⟨F P, hF1 P, ?_, hnd, hF2 P, fun a ha h => owned_not_held c hc F held hF3 P a h ha⟩
    rw [← pool_blocks_length]
    exact (List.subperm_of_subset hnd (hF2 P)).length_le
  · refine ⟨[], ?_, Nat.zero_le _, List.nodup_nil, fun _ h => absurd h (List.not_mem_nil _),
      fun _ _ h => absurd h (List.not_mem_nil _)⟩
    cases P
    · exact h1
    · exact h2

/-- C9: `malloc` never hands out a block that is still held. After every
sequence of calls from program start that obeys the client contract (`free` only
with null or with a held block), any further run of requests returns, apart from
null, only addresses that the caller does not hold, and these are pairwise
distinct; the held addresses are pairwise distinct, both free lists are
null-terminated and no held address is reachable from either head. -/
theorem C9_no_held_block_handed_out (c : Config) (s : State) (cs : List Call)
    (zs : List Nat) (fuel : Nat) (hc : c.WF)
    (hs : s.pools_inited = false) (hS : s.free_small = 0) (hL : s.free_large = 0)
    (hob : obeys c s [] cs = true)
    (hfS : c.SMALL_POOL_BLOCKS ≤ fuel) (hfL : c.LARGE_POOL_BLOCKS ≤ fuel) :
    (∀ a ∈ (mallocs c (run_held c s [] cs).1 zs).1, a ≠ 0 →
      a ∉ (run_held c s [] cs).2) ∧
    ((mallocs c (run_held c s [] cs).1 zs).1.filter (fun p => p ≠ 0)).Nodup ∧
    (run_held c s [] cs).2.Nodup ∧
    (∃ Ls Ll,
      free_list (run_held c s [] cs).1.mem fuel (run_held c s [] cs).1.free_small = some Ls ∧
      free_list (run_held c s [] cs).1.mem fuel (run_held c s [] cs).1.free_large = some Ll ∧
      ∀ a ∈ (run_held c s [] cs).2, a ∉ Ls ∧ a ∉ Ll) := by
  have hq := quiescent_run c hc cs s [] (Or.inr ⟨hs, rfl, hS, hL⟩) hob
  have hq2 := quiescent_mallocs c hc zs _ _ hq
  have hnd := quiescent_held_nodup c hc _ _ hq2
  rw [List.nodup_append] at hnd
  obtain ⟨n1, n2, n3⟩ := hnd
  refine ⟨?_, List.nodup_reverse.mp n1, n2, ?_⟩
  · intro a ha ha0 hh
    exact n3 (List.mem_reverse.mpr (List.mem_filter.mpr ⟨ha, by simpa using ha0⟩)) hh
  · obtain ⟨Ls, s1, s2, _, _, s5⟩ := quiescent_lists c hc _ _ hq Pool.small
    obtain ⟨Ll, l1, l2, _, _, l5⟩ := quiescent_lists c hc _ _ hq Pool.large
    exact ⟨Ls, Ll, free_list_of_isSeg _ _ _ fuel s1 (Nat.le_trans s2 hfS),
      free_list_of_isSeg _ _ _ fuel l1 (Nat.le_trans l2 hfL),
      fun a ha => ⟨s5 a ha, l5 a ha⟩⟩

/-- C9 on a small build, after the calls `callsTiny` from program start. -/
theorem C9_no_held_block_handed_out_witness :
    cfgTiny.WF ∧ obeys cfgTiny State.initial [] callsTiny = true ∧
    (∀ a ∈ (mallocs cfgTiny (run_held cfgTiny State.initial [] callsTiny).1 [15, 16]).1,
      a ≠ 0 → a ∉ (run_held cfgTiny State.initial [] callsTiny).2) ∧
    ((mallocs cfgTiny (run_held cfgTiny State.initial [] callsTiny).1
      [15, 16]).1.filter (fun p => p ≠ 0)).Nodup ∧
    (run_held cfgTiny State.initial [] callsTiny).2.Nodup ∧
    (∃ Ls Ll,
      free_list (run_held cfgTiny State.initial [] callsTiny).1.mem 3
        (run_held cfgTiny State.initial [] callsTiny).1.free_small = some Ls ∧
      free_list (run_held cfgTiny State.initial [] callsTiny).1.mem 3
        (run_held cfgTiny State.initial [] callsTiny).1.free_large = some Ll ∧
      ∀ a ∈ (run_held cfgTiny State.initial [] callsTiny).2, a ∉ Ls ∧ a ∉ Ll) :=
  ⟨by decide, by decide,
    C9_no_held_block_handed_out cfgTiny State.initial callsTiny [15, 16] 3 (by decide)
      rfl rfl rfl (by decide) (by decide) (by decide)⟩

/-! ## 16. Returned addresses -/

theorem mem_pool_blocks (c : Config) (P : Pool) (a : Nat) :
    a ∈ pool_blocks c P ↔
      ∃ i, i < block_count c P ∧ a = pool_base c P + i * block_bytes c P := by
  cases P
  · simp only [pool_blocks, small_blocks, List.mem_map, List.mem_range, block_count,
      pool_base, block_bytes]
    constructor
    · rintro ⟨i, hi, rfl⟩
      exact ⟨i, hi, rfl⟩
    · rintro ⟨i, hi, rfl⟩
      exact ⟨i, hi, rfl⟩
  · simp only [pool_blocks, large_blocks, List.mem_map, List.mem_range, block_count,
      pool_base, block_bytes]
    constructor
    · rintro ⟨i, hi, rfl⟩
      exact ⟨i, hi, rfl⟩
    · rintro ⟨i, hi, rfl⟩
      exact ⟨i, hi, rfl⟩

theorem block_count_pos (c : Config) (hc : c.WF) (P : Pool) : 0 < block_count c P := by
  cases P
  · exact hc.2.1
  · exact hc.2.2.1

theorem init_pools_head (c : Config) (s : State) (hs : s.pools_inited = false) (P : Pool) :
    (init_pools c s).head P = pool_base c P := by
  cases P
  · exact (init_pools_heads c s hs).1
  · exact (init_pools_heads c s hs).2.1

theorem init_pools_mem (c : Config) (hc : c.WF) (s : State) (hs : s.pools_inited = false)
    (P : Pool) (i : Nat) (hi : i < block_count c P) :
    (init_pools c s).mem (pool_base c P + i * block_bytes c P) =
      next_of (pool_base c P) (block_count c P) (block_bytes c P) i := by
  cases P
  · exact init_pools_mem_small c hc s hs i hi
  · exact init_pools_mem_large c hc s hs i hi

theorem free_unreleased (c : Config) (s : State) (p : Nat)
    (h : release_class c p = none) : free c s p = s := by
  unfold release_class at h
  by_cases hp : p = 0
  · subst hp
    exact free_null c s
  · simp only [hp, if_false] at h
    cases h1 : in_small c p with
    | true => simp [h1] at h
    | false =>
      cases h2 : in_large c p with
      | true => simp [h1, h2] at h
      | false => exact free_unclassified c s p h1 h2

theorem block_bytes_dvd (c : Config) (P : Pool) : c.PTR_SZ ∣ block_bytes c P := by
  cases P
  · exact Dvd.intro_left _ rfl
  · exact Dvd.intro_left _ rfl

/-- A release that `free` ignores, or that releases a held block, keeps the
ownership invariant. -/
theorem quiescent_free_tol (c : Config) (hc : c.WF) (s : State) (held : List Nat) (p : Nat)
    (hq : Quiescent c s held)
    (hp : s.pools_inited = false ∨ release_class c p = none ∨ p ∈ held) :
    Quiescent c (free c s p) (held.erase p) := by
  rcases hq with ⟨hinit, hown⟩ | ⟨hinit, hh, h1, h2⟩
  · rcases hp with h | h | h
    · rw [hinit] at h
      exact absurd h (by decide)
    · obtain ⟨F, hF1, hF2, hF3⟩ := hown
      have hnot : p ∉ held := by
        intro hin
        obtain ⟨P, hP⟩ := held_is_block c F held hF3 p hin
        rw [(release_class_iff c hc P p).mpr hP] at h
        exact Option.noConfusion h
      rw [free_unreleased c s p h, List.erase_of_not_mem hnot]
      exact Or.inl ⟨hinit, F, hF1, hF2, hF3⟩
    · exact Or.inl ⟨by rw [free_inited]; exact hinit,
        owned_free c hc s held p hinit hown (Or.inr h)⟩
  · subst hh
    rw [free_of_not_inited c s p hinit]
    exact Or.inr ⟨hinit, rfl, h1, h2⟩

/-- The ownership invariant holds after every tolerated sequence of calls. -/
theorem quiescent_run_tol (c : Config) (hc : c.WF) (cs : List Call) (s : State)
    (held : List Nat) (hq : Quiescent c s held) (htol : tolerated c s held cs = true) :
    Quiescent c (run_held c s held cs).1 (run_held c s held cs).2 := by
  induction cs generalizing s held with
  | nil => exact hq
  | cons call cs ih =>
    cases call with
    | allocate z =>
      simp only [tolerated] at htol
      simp only [run_held]
      exact ih _ _ (quiescent_malloc c hc s held z hq).1 htol
    | release p =>
      simp only [tolerated, Bool.and_eq_true, Bool.or_eq_true, decide_eq_true_eq,
        Bool.not_eq_true'] at htol
      simp only [run_held]
      exact ih _ _ (quiescent_free_tol c hc s held p hq (or_assoc.mp htol.1)) htol.2
    | store p v =>
      simp only [tolerated, Bool.and_eq_true, decide_eq_true_eq] at htol
      simp only [run_held]
      exact ih _ _ (quiescent_store c hc s held p v hq htol.1) htol.2

/-- The record of held blocks does not influence the state. -/
theorem run_held_fst (c : Config) (cs : List Call) (s : State) (held : List Nat) :
    (run_held c s held cs).1 = run c s cs := by
  induction cs generalizing s held with
  | nil => rfl
  | cons call cs ih =>
    cases call with
    | allocate z => simp only [run_held, run]; exact ih _ _
    | release p => simp only [run_held, run]; exact ih _ _
    | store p v => simp only [run_held, run]; exact ih _ _

/-- Under the ownership invariant a non-null result of a request of class `P` is
a block start of `P`. -/
theorem owned_malloc_block (c : Config) (s : State) (held : List Nat) (z : Nat) (P : Pool)
    (hinit : s.pools_inited = true) (hown : Owned c s held)
    (hz : size_class z = some P) (hr : (malloc c s z).1 ≠ 0) :
    (malloc c s z).1 ∈ pool_blocks c P := by
  obtain ⟨F, hF1, hF2, _⟩ := hown
  rw [malloc_eq_pop c s P z hinit hz] at hr ⊢
  by_cases h0 : s.head P = 0
  · rw [if_pos h0] at hr
    exact absurd rfl hr
  · rw [if_neg h0]
    have hseg := hF1 P
    cases hL : F P with
    | nil =>
      rw [hL] at hseg
      exact absurd hseg h0
    | cons a L =>
      rw [hL] at hseg
      have ha : a ∈ F P := by rw [hL]; exact List.mem_cons_self _ _
      have e : s.head P = a := hseg.1
      show s.head P ∈ pool_blocks c P
      rw [e]
      exact hF2 P a ha

theorem quiescent_malloc_block (c : Config) (hc : c.WF) (s : State) (held : List Nat)
    (z : Nat) (P : Pool) (hq : Quiescent c s held) (hz : size_class z = some P)
    (hr : (malloc c s z).1 ≠ 0) : (malloc c s z).1 ∈ pool_blocks c P := by
  rcases hq with ⟨hinit, hown⟩ | ⟨hinit, _, _, _⟩
  · exact owned_malloc_block c s held z P hinit hown hz hr
  · rw [malloc_of_not_inited c s z hinit] at hr ⊢
    exact owned_malloc_block c _ [] z P (init_pools_heads c s hinit).2.2
      (owned_init c hc s hinit) hz hr

/-- C10 (as amended): returned addresses are block starts of the right pool. In
every state reached from a never-initialised state by a tolerated sequence
(requests of any size, caller stores into held blocks, and releases with any
argument except a pointer that `free` accepts while the caller does not hold
it), a non-null result of `malloc` for a size of class `P` is
`pool_base P + i * block_bytes P` for some `i < N_P`; it is a multiple of
`PTR_SZ` whenever the pool base is, and `free` classifies it into pool `P`. -/
theorem C10_returned_block_start (c : Config) (s : State) (cs : List Call) (z : Nat)
    (P : Pool) (hc : c.WF) (hs : s.pools_inited = false) (hS : s.free_small = 0)
    (hL : s.free_large = 0) (htol : tolerated c s [] cs = true)
    (hz : size_class z = some P) (hr : (malloc c (run c s cs) z).1 ≠ 0) :
    (∃ i, i < block_count c P ∧
      (malloc c (run c s cs) z).1 = pool_base c P + i * block_bytes c P) ∧
    (pool_base c P % c.PTR_SZ = 0 → (malloc c (run c s cs) z).1 % c.PTR_SZ = 0) ∧
    release_class c (malloc c (run c s cs) z).1 = some P := by
  have hq := quiescent_run_tol c hc cs s [] (Or.inr ⟨hs, rfl, hS, hL⟩) htol
  rw [run_held_fst] at hq
  have hb := quiescent_malloc_block c hc _ _ z P hq hz hr
  refine ⟨(mem_pool_blocks c P _).mp hb, ?_, (release_class_iff c hc P _).mpr hb⟩
  intro hbase
  obtain ⟨i, _, hi⟩ := (mem_pool_blocks c P _).mp hb
  rw [hi]
  have h1 : c.PTR_SZ ∣ pool_base c P := Nat.dvd_of_mod_eq_zero hbase
  have h2 : c.PTR_SZ ∣ i * block_bytes c P := Dvd.dvd.mul_left (block_bytes_dvd c P) i
  exact Nat.mod_eq_zero_of_dvd (Dvd.dvd.add h1 h2)

/-- C10 on a small build, after the calls `callsLenient` from program start, for
a request of 15 bytes. -/
theorem C10_returned_block_start_witness :
    cfgTiny.WF ∧ State.initial.pools_inited = false ∧
    tolerated cfgTiny State.initial [] callsLenient = true ∧
    size_class 15 = some Pool.small ∧
    (malloc cfgTiny (run cfgTiny State.initial callsLenient) 15).1 ≠ 0 ∧
    ((∃ i, i < block_count cfgTiny Pool.small ∧
      (malloc cfgTiny (run cfgTiny State.initial callsLenient) 15).1 =
        pool_base cfgTiny Pool.small + i * block_bytes cfgTiny Pool.small) ∧
    (pool_base cfgTiny Pool.small % cfgTiny.PTR_SZ = 0 →
      (malloc cfgTiny (run cfgTiny State.initial callsLenient) 15).1 % cfgTiny.PTR_SZ = 0) ∧
    release_class cfgTiny (malloc cfgTiny (run cfgTiny State.initial callsLenient) 15).1 =
      some Pool.small) :=
  ⟨by decide, rfl, by decide, by decide, by decide,
    C10_returned_block_start cfgTiny State.initial callsLenient 15 Pool.small (by decide)
      rfl rfl rfl (by decide) (by decide) (by decide)⟩

/-- C10 as stated fails after a double free: in `callsDouble` the block 4096 is
released twice and handed out again; the caller, which now holds it, writes
777777 into it; the block is handed out once more, and the next `malloc(15)`
returns 777777, which is not a block start and which `free` does not
classify. -/
theorem C10_counterexample :
    size_class 15 = some Pool.small ∧
    (malloc cfgTiny (run cfgTiny State.initial callsDouble) 15).1 ≠ 0 ∧
    (malloc cfgTiny (run cfgTiny State.initial callsDouble) 15).1 = 777777 ∧
    ¬ (∃ i, i < block_count cfgTiny Pool.small ∧
      (malloc cfgTiny (run cfgTiny State.initial callsDouble) 15).1 =
        pool_base cfgTiny Pool.small + i * block_bytes cfgTiny Pool.small) ∧
    release_class cfgTiny (malloc cfgTiny (run cfgTiny State.initial callsDouble) 15).1 =
      none := by
  decide

/-! ## 17. Releases that are not recognised -/

theorem block_bytes_pos (c : Config) (hc : c.WF) (P : Pool) : 0 < block_bytes c P := by
  cases P
  · exact BLOCK_BYTES_SMALL_pos c hc.1
  · exact BLOCK_BYTES_LARGE_pos c hc.1

/-- A block start of a pool lies in the byte range of the pool, on a block
boundary. -/
theorem pool_blocks_range (c : Config) (hc : c.WF) (P : Pool) (p : Nat)
    (hp : p ∈ pool_blocks c P) :
    pool_base c P ≤ p ∧ p < pool_base c P + block_count c P * block_bytes c P ∧
    (p - pool_base c P) % block_bytes c P = 0 := by
  obtain ⟨i, hi, rfl⟩ := (mem_pool_blocks c P p).mp hp
  have h1 : i * block_bytes c P < block_count c P * block_bytes c P :=
    Nat.mul_lt_mul_of_pos_right hi (block_bytes_pos c hc P)
  refine ⟨by omega, by omega, ?_⟩
  rw [Nat.add_sub_cancel_left]
  exact Nat.mul_mod_left i _

/-- C11: an unrecognised release is a no-op. In every state, initialised or not,
`free(p)` leaves the whole state unchanged, and with it the counts of the debug
probe, when `p` is null, or lies outside the byte ranges of both pools, or lies
inside the range of a pool but not on a block boundary of it. -/
theorem C11_unrecognized_release (c : Config) (s : State) (p fuel : Nat) (hc : c.WF)
    (hp : p = 0 ∨
      ((p < c.pool_small ∨ c.pool_small + POOL_SMALL_WORDS c * c.PTR_SZ ≤ p) ∧
        (p < c.pool_large ∨ c.pool_large + POOL_LARGE_WORDS c * c.PTR_SZ ≤ p)) ∨
      (c.pool_small ≤ p ∧ p < c.pool_small + POOL_SMALL_WORDS c * c.PTR_SZ ∧
        (p - c.pool_small) % BLOCK_BYTES_SMALL c ≠ 0) ∨
      (c.pool_large ≤ p ∧ p < c.pool_large + POOL_LARGE_WORDS c * c.PTR_SZ ∧
        (p - c.pool_large) % BLOCK_BYTES_LARGE c ≠ 0)) :
    free c s p = s ∧
    custom_alloc_debug_print fuel (free c s p) = custom_alloc_debug_print fuel s := by
  have key : free c s p = s := by
    by_cases hp0 : p = 0
    · subst hp0
      exact free_null c s
    · have hS := pool_blocks_range c hc Pool.small p
      have hL := pool_blocks_range c hc Pool.large p
      have eS := pool_small_bytes_eq c
      have eL := pool_large_bytes_eq c
      have hdis := hc.2.2.2.2.2.2.2
      simp only [pool_base, block_count, block_bytes, pool_blocks] at hS hL
      have h1 : in_small c p = false := by
        cases h : in_small c p with
        | false => rfl
        | true =>
          have := hS ((in_small_iff c hc p).mp h)
          omega
      have h2 : in_large c p = false := by
        cases h : in_large c p with
        | false => rfl
        | true =>
          have := hL ((in_large_iff c hc p).mp h)
          omega
      exact free_unclassified c s p h1 h2
  rw [key]
  exact ⟨rfl, rfl⟩

/-- C11 on the default 64-bit build, for an address inside the small pool that
is not on a block boundary. -/
theorem C11_unrecognized_release_witness :
    cfg64.WF ∧
    (4100 = 0 ∨
      ((4100 < cfg64.pool_small ∨
          cfg64.pool_small + POOL_SMALL_WORDS cfg64 * cfg64.PTR_SZ ≤ 4100) ∧
        (4100 < cfg64.pool_large ∨
          cfg64.pool_large + POOL_LARGE_WORDS cfg64 * cfg64.PTR_SZ ≤ 4100)) ∨
      (cfg64.pool_small ≤ 4100 ∧
        4100 < cfg64.pool_small + POOL_SMALL_WORDS cfg64 * cfg64.PTR_SZ ∧
        (4100 - cfg64.pool_small) % BLOCK_BYTES_SMALL cfg64 ≠ 0) ∨
      (cfg64.pool_large ≤ 4100 ∧
        4100 < cfg64.pool_large + POOL_LARGE_WORDS cfg64 * cfg64.PTR_SZ ∧
        (4100 - cfg64.pool_large) % BLOCK_BYTES_LARGE cfg64 ≠ 0)) ∧
    free cfg64 stBoth 4100 = stBoth ∧
    custom_alloc_debug_print 5 (free cfg64 stBoth 4100) =
      custom_alloc_debug_print 5 stBoth :=
  ⟨by decide, by decide, C11_unrecognized_release cfg64 stBoth 4100 5 (by decide) (by decide)⟩

/-- C12: a release before initialisation is a no-op. On a never-initialised
state `free(p)` leaves the state unchanged for every address `p`, a block start
included: no word is written, the flag stays false and, at program start, both
heads stay null. -/
theorem C12_release_before_init (c : Config) (s : State) (p : Nat)
    (hs : s.pools_inited = false) :
    free c s p = s ∧ (free c s p).pools_inited = false ∧
    (free c s p).mem = s.mem ∧
    (free c State.initial p).free_small = 0 ∧ (free c State.initial p).free_large = 0 := by
  have h1 := free_of_not_inited c s p hs
  have h2 := free_of_not_inited c State.initial p rfl
  rw [h1, h2]
  exact ⟨rfl, hs, rfl, rfl, rfl⟩

/-- C12 on the default 64-bit build at program start, for the address of the
first small block. -/
theorem C12_release_before_init_witness :
    State.initial.pools_inited = false ∧
    free cfg64 State.initial 4096 = State.initial ∧
    (free cfg64 State.initial 4096).pools_inited = false ∧
    (free cfg64 State.initial 4096).mem = State.initial.mem ∧
    (free cfg64 State.initial 4096).free_small = 0 ∧
    (free cfg64 State.initial 4096).free_large = 0 :=
  ⟨rfl, C12_release_before_init cfg64 State.initial 4096 rfl⟩

/-- C13 (as amended): the flag becomes true on the first `malloc`, whatever the
size: that call first runs `init_pools`, which sets both heads to the pool bases,
and then serves the request. A `free` on a never-initialised state changes
nothing, so the flag stays false, and a `malloc` after it still initialises. -/
theorem C13_first_call_flag (c : Config) (s : State) (z p : Nat)
    (hs : s.pools_inited = false) :
    (malloc c s z).2.pools_inited = true ∧
    malloc c s z = malloc c (init_pools c s) z ∧
    (init_pools c s).pools_inited = true ∧
    (init_pools c s).free_small = c.pool_small ∧
    (init_pools c s).free_large = c.pool_large ∧
    free c s p = s ∧ (free c s p).pools_inited = false ∧
    (malloc c (free c s p) z).2.pools_inited = true := by
  obtain ⟨h1, h2, h3⟩ := init_pools_heads c s hs
  have hf := free_of_not_inited c s p hs
  rw [hf]
  exact ⟨malloc_inited c s z, malloc_of_not_inited c s z hs, h3, h1, h2, rfl, hs,
    malloc_inited c s z⟩

/-- C13 on the default 64-bit build at program start, for a refused request and
the address of the first small block. -/
theorem C13_first_call_flag_witness :
    State.initial.pools_inited = false ∧
    (malloc cfg64 State.initial 181).2.pools_inited = true ∧
    malloc cfg64 State.initial 181 = malloc cfg64 (init_pools cfg64 State.initial) 181 ∧
    (init_pools cfg64 State.initial).pools_inited = true ∧
    (init_pools cfg64 State.initial).free_small = cfg64.pool_small ∧
    (init_pools cfg64 State.initial).free_large = cfg64.pool_large ∧
    free cfg64 State.initial 4096 = State.initial ∧
    (free cfg64 State.initial 4096).pools_inited = false ∧
    (malloc cfg64 (free cfg64 State.initial 4096) 181).2.pools_inited = true :=
  ⟨rfl, C13_first_call_flag cfg64 State.initial 181 4096 rfl⟩

/-- C13 as stated fails when the first call is a release: at program start
`free` of the first small block address leaves the flag false and both heads
null. -/
theorem C13_counterexample :
    ¬ ((free cfg64 State.initial 4096).pools_inited = true ∧
       (free cfg64 State.initial 4096).free_small ≠ 0 ∧
       (free cfg64 State.initial 4096).free_large ≠ 0) := by
  decide

/-- C14: `malloc(0)` behaves identically to `malloc(1)`. In every state the two
calls return the same pointer and the same new state; the pointer is the small
head of the state after the lazy initialisation, so it is null exactly when the
small list is empty. -/
theorem C14_zero_is_one (c : Config) (s : State) :
    malloc c s 0 = malloc c s 1 ∧
    (malloc c s 0).1 = (init_pools c s).free_small ∧
    ((malloc c s 0).1 = 0 ↔ (init_pools c s).free_small = 0) := by
  have key : ∀ t : State, t.pools_inited = true →
      malloc c t 0 = malloc c t 1 ∧ (malloc c t 0).1 = t.free_small := by
    intro t ht
    rw [malloc_of_inited c t 0 ht, malloc_of_inited c t 1 ht]
    refine ⟨rfl, ?_⟩
    have h : max 0 1 ≤ REQ_SMALL := by decide
    rw [if_pos h]
    split
    · rename_i h0
      exact h0.symm
    · rfl
  have main : malloc c s 0 = malloc c s 1 ∧ (malloc c s 0).1 = (init_pools c s).free_small := by
    cases hs : s.pools_inited with
    | true =>
      rw [init_pools_of_inited c s hs]
      exact key s hs
    | false =>
      rw [malloc_of_not_inited c s 0 hs, malloc_of_not_inited c s 1 hs]
      exact key _ (init_pools_heads c s hs).2.2
  exact ⟨main.1, main.2, by rw [main.2]⟩

/-! ## 18. Block size arithmetic -/

theorem MAX_eq_max (a b : Nat) : MAX a b = max a b := by
  unfold MAX
  split <;> omega

/-- Rounding up to whole words does not lose bytes. -/
theorem le_round_up (x W : Nat) (hW : 0 < W) : x ≤ ((x + W - 1) / W) * W := by
  have h1 := Nat.div_add_mod (x + W - 1) W
  have h2 := Nat.mod_lt (x + W - 1) hW
  have h3 : W * ((x + W - 1) / W) = ((x + W - 1) / W) * W := Nat.mul_comm _ _
  omega

/-- Rounding up to whole words gives the least multiple that is large enough. -/
theorem round_up_le (x W m : Nat) (hW : 0 < W) (hdvd : W ∣ m) (hm : x ≤ m) :
    ((x + W - 1) / W) * W ≤ m := by
  obtain ⟨j, rfl⟩ := hdvd
  have h1 : (x + W - 1) / W ≤ j := by
    apply Nat.le_of_lt_succ
    rw [Nat.div_lt_iff_lt_mul hW]
    have : Nat.succ j * W = W * j + W := by rw [Nat.succ_mul, Nat.mul_comm]
    omega
  calc ((x + W - 1) / W) * W ≤ j * W := Nat.mul_le_mul_right W h1
    _ = W * j := Nat.mul_comm _ _

/-- The word count is the ceiling of the quotient. -/
theorem round_up_ceil (x W : Nat) (hW : 0 < W) :
    (x + W - 1) / W = ⌈(x : ℚ) / (W : ℚ)⌉₊ := by
  have hWq : (0 : ℚ) < (W : ℚ) := by exact_mod_cast hW
  apply Nat.le_antisymm
  · have h1 : (x : ℚ) / (W : ℚ) ≤ (⌈(x : ℚ) / (W : ℚ)⌉₊ : ℚ) := Nat.le_ceil _
    have h2 : (x : ℚ) ≤ (⌈(x : ℚ) / (W : ℚ)⌉₊ : ℚ) * (W : ℚ) := (div_le_iff₀ hWq).mp h1
    have h3 : x ≤ ⌈(x : ℚ) / (W : ℚ)⌉₊ * W := by exact_mod_cast h2
    have h4 := round_up_le x W (⌈(x : ℚ) / (W : ℚ)⌉₊ * W) hW (Dvd.intro_left _ rfl) h3
    exact Nat.le_of_mul_le_mul_right h4 hW
  · rw [Nat.ceil_le, div_le_iff₀ hWq]
    have := le_round_up x W hW
    exact_mod_cast this

/-- C15: block size arithmetic. For a pointer size `W ≥ 1` and a payload `REQ`,
the block size the code computes, `((MAX(REQ, W) + W - 1) / W) * W`, equals
`W * ⌈max(REQ, W) / W⌉`; it is the least multiple of `W` that is at least
`max(REQ, W)`, so it is a multiple of `W`, at least `W` and at least `REQ`.
With `W = 8` the payloads 15 and 180 give 16 and 184 bytes, and these are the
constants `BLOCK_BYTES_SMALL` and `BLOCK_BYTES_LARGE` of the 64-bit build. -/
theorem C15_block_size (REQ W : Nat) (hW : 1 ≤ W) :
    block_bytes_of REQ W = W * ⌈((max REQ W : Nat) : ℚ) / (W : ℚ)⌉₊ ∧
    W ∣ block_bytes_of REQ W ∧
    max REQ W ≤ block_bytes_of REQ W ∧
    (∀ m, W ∣ m → max REQ W ≤ m → block_bytes_of REQ W ≤ m) ∧
    W ≤ block_bytes_of REQ W ∧ REQ ≤ block_bytes_of REQ W ∧
    block_bytes_of 15 8 = 16 ∧ block_bytes_of 180 8 = 184 ∧
    (∀ c : Config, BLOCK_BYTES_SMALL c = block_bytes_of REQ_SMALL c.PTR_SZ ∧
      BLOCK_BYTES_LARGE c = block_bytes_of REQ_LARGE c.PTR_SZ) ∧
    BLOCK_BYTES_SMALL cfg64 = 16 ∧ BLOCK_BYTES_LARGE cfg64 = 184 := by
  have hpos : 0 < W := hW
  have hle := le_round_up (max REQ W) W hpos
  have e : block_bytes_of REQ W = ((max REQ W + W - 1) / W) * W := by
    unfold block_bytes_of
    rw [MAX_eq_max]
  rw [e]
  refine ⟨?_, Dvd.intro_left _ rfl, hle, ?_, ?_, ?_, by decide, by decide,
    fun c => ⟨rfl, rfl⟩, by decide, by decide⟩
  · rw [round_up_ceil _ _ hpos, Nat.mul_comm]
  · intro m h1 h2
    exact round_up_le _ _ m hpos h1 h2
  · exact Nat.le_trans (Nat.le_max_right REQ W) hle
  · exact Nat.le_trans (Nat.le_max_left REQ W) hle

/-- C15 for the payload 15 on a 64-bit target. -/
theorem C15_block_size_witness :
    1 ≤ 8 ∧ 8 ∣ block_bytes_of 15 8 ∧ max 15 8 ≤ block_bytes_of 15 8 ∧
    (∀ m, 8 ∣ m → max 15 8 ≤ m → block_bytes_of 15 8 ≤ m) ∧
    block_bytes_of 15 8 = 8 * ⌈((max 15 8 : Nat) : ℚ) / ((8 : Nat) : ℚ)⌉₊ :=
  ⟨by decide, (C15_block_size 15 8 (by decide)).2.1, (C15_block_size 15 8 (by decide)).2.2.1,
    (C15_block_size 15 8 (by decide)).2.2.2.1, (C15_block_size 15 8 (by decide)).1⟩

/-! ## 19. Free-list membership -/

/-- On a null-terminated chain the walk only visits nodes of the chain, and the
first word of a visited node is null or again a node of the chain. -/
theorem isSeg_nth_node (mem : Nat → Nat) (n : Nat) (L : List Nat) (h : Nat)
    (hseg : isSeg mem h L 0) :
    nth_node mem n h = 0 ∨
      (nth_node mem n h ∈ L ∧
        (mem (nth_node mem n h) = 0 ∨ mem (nth_node mem n h) ∈ L)) := by
  induction n generalizing L h with
  | zero =>
    cases L with
    | nil => exact Or.inl hseg
    | cons a l =>
      obtain ⟨e1, _, e3⟩ := hseg
      right
      show h ∈ a :: l ∧ (mem h = 0 ∨ mem h ∈ a :: l)
      rw [e1]
      refine ⟨List.mem_cons_self _ _, ?_⟩
      cases l with
      | nil => exact Or.inl e3
      | cons b l2 =>
        right
        rw [e3.1]
        exact List.mem_cons_of_mem _ (List.mem_cons_self _ _)
  | succ n ih =>
    unfold nth_node
    cases L with
    | nil =>
      have : h = 0 := hseg
      simp [this]
    | cons a l =>
      obtain ⟨e1, e2, e3⟩ := hseg
      have hne : h ≠ 0 := by rw [e1]; exact e2
      rw [if_neg hne, e1]
      rcases ih l (mem a) e3 with h0 | ⟨h1, h2⟩
      · exact Or.inl h0
      · exact Or.inr ⟨List.mem_cons_of_mem _ h1, h2.imp id (List.mem_cons_of_mem _)⟩

/-- C16 (as amended): free-list membership. In every state reached from a
never-initialised state by a tolerated sequence (requests of any size, caller
stores into held blocks, and releases with any argument except a pointer that
`free` accepts while the caller does not hold it), each head is null or a block
start of its pool, and every non-null address reached from the head of pool `P`
is a block start of `P` whose first word is null or a block start of `P`; it
lies in the byte range of `P` on a block boundary of `P` and is not a block
start of the other pool. -/
theorem C16_membership_invariant (c : Config) (s : State) (cs : List Call) (hc : c.WF)
    (hs : s.pools_inited = false) (hS : s.free_small = 0) (hL : s.free_large = 0)
    (htol : tolerated c s [] cs = true) :
    (∀ P, (run c s cs).head P = 0 ∨ (run c s cs).head P ∈ pool_blocks c P) ∧
    (∀ P n A, nth_node (run c s cs).mem n ((run c s cs).head P) = A → A ≠ 0 →
      A ∈ pool_blocks c P ∧
      ((run c s cs).mem A = 0 ∨ (run c s cs).mem A ∈ pool_blocks c P) ∧
      pool_base c P ≤ A ∧ A < pool_base c P + block_count c P * block_bytes c P ∧
      (A - pool_base c P) % block_bytes c P = 0 ∧
      ∀ Q, Q ≠ P → A ∉ pool_blocks c Q) := by
  have hq := quiescent_run_tol c hc cs s [] (Or.inr ⟨hs, rfl, hS, hL⟩) htol
  rw [run_held_fst] at hq
  have key : ∀ P n, nth_node (run c s cs).mem n ((run c s cs).head P) = 0 ∨
      (nth_node (run c s cs).mem n ((run c s cs).head P) ∈ pool_blocks c P ∧
        ((run c s cs).mem (nth_node (run c s cs).mem n ((run c s cs).head P)) = 0 ∨
          (run c s cs).mem (nth_node (run c s cs).mem n ((run c s cs).head P)) ∈
            pool_blocks c P)) := by
    intro P n
    obtain ⟨L, l1, _, _, l4, _⟩ := quiescent_lists c hc _ _ hq P
    rcases isSeg_nth_node _ n L _ l1 with h0 | ⟨h1, h2⟩
    · exact Or.inl h0
    · exact Or.inr ⟨l4 _ h1, h2.imp id (l4 _)⟩
  constructor
  · intro P
    exact (key P 0).imp id (fun h => h.1)
  · intro P n A hA hA0
    have hk := key P n
    rw [hA] at hk
    obtain ⟨hb, hm⟩ := hk.resolve_left hA0
    obtain ⟨r1, r2, r3⟩ := pool_blocks_range c hc P A hb
    exact ⟨hb, hm, r1, r2, r3, fun Q hQ h => pool_blocks_disjoint c hc Q P hQ A h hb⟩

/-- C16 on a small build, after the calls `callsLenient` from program start. -/
theorem C16_membership_invariant_witness :
    cfgTiny.WF ∧ State.initial.pools_inited = false ∧
    tolerated cfgTiny State.initial [] callsLenient = true ∧
    (∀ P, (run cfgTiny State.initial callsLenient).head P = 0 ∨
      (run cfgTiny State.initial callsLenient).head P ∈ pool_blocks cfgTiny P) ∧
    (∀ P n A, nth_node (run cfgTiny State.initial callsLenient).mem n
        ((run cfgTiny State.initial callsLenient).head P) = A → A ≠ 0 →
      A ∈ pool_blocks cfgTiny P ∧
      ((run cfgTiny State.initial callsLenient).mem A = 0 ∨
        (run cfgTiny State.initial callsLenient).mem A ∈ pool_blocks cfgTiny P) ∧
      pool_base cfgTiny P ≤ A ∧
      A < pool_base cfgTiny P + block_count cfgTiny P * block_bytes cfgTiny P ∧
      (A - pool_base cfgTiny P) % block_bytes cfgTiny P = 0 ∧
      ∀ Q, Q ≠ P → A ∉ pool_blocks cfgTiny Q) :=
  ⟨by decide, rfl, by decide,
    C16_membership_invariant cfgTiny State.initial callsLenient (by decide) rfl rfl rfl
      (by decide)⟩

/-- C16 as stated fails in two ways. After `callsWrite` the caller has written
777777 into the block 4096 it holds, so the first word of that block is neither
null nor a block start. After the double free of `callsDouble` the small head
itself is 777777, neither null nor a block start of the small pool. -/
theorem C16_counterexample :
    (4096 ∈ pool_blocks cfgTiny Pool.small ∧
      ¬ ((run cfgTiny State.initial callsWrite).mem 4096 = 0 ∨
        (run cfgTiny State.initial callsWrite).mem 4096 ∈ pool_blocks cfgTiny Pool.small)) ∧
    ¬ ((run cfgTiny State.initial callsDouble).head Pool.small = 0 ∨
      (run cfgTiny State.initial callsDouble).head Pool.small ∈
        pool_blocks cfgTiny Pool.small) := by
  decide

/-! ## 20. Acyclicity and conservation under the client contract -/

/-- An initialised allocator stays initialised and keeps the ownership invariant
along calls that obey the client contract. -/
theorem owned_run (c : Config) (hc : c.WF) (cs : List Call) (s : State) (held : List Nat)
    (hinit : s.pools_inited = true) (hown : Owned c s held)
    (hob : obeys c s held cs = true) :
    (run_held c s held cs).1.pools_inited = true ∧
    Owned c (run_held c s held cs).1 (run_held c s held cs).2 := by
  induction cs generalizing s held with
  | nil => exact ⟨hinit, hown⟩
  | cons call cs ih =>
    cases call with
    | allocate z =>
      simp only [obeys] at hob
      simp only [run_held]
      exact ih _ _ (malloc_inited c s z) (owned_malloc c hc s held z hinit hown).1 hob
    | release p =>
      simp only [obeys, Bool.and_eq_true, Bool.or_eq_true, decide_eq_true_eq] at hob
      simp only [run_held]
      exact ih _ _ (by rw [free_inited]; exact hinit)
        (owned_free c hc s held p hinit hown hob.1) hob.2
    | store p v =>
      simp only [obeys, Bool.and_eq_true, decide_eq_true_eq] at hob
      simp only [run_held]
      exact ih _ _ hinit (owned_store c hc s held p v hown hob.1) hob.2

theorem filter_pool_self (c : Config) (P : Pool) (X : List Nat)
    (hX : ∀ a ∈ X, a ∈ pool_blocks c P) :
    X.filter (fun a => a ∈ pool_blocks c P) = X :=
  List.filter_eq_self.mpr (fun a ha => by simpa using hX a ha)

theorem filter_pool_other (c : Config) (hc : c.WF) (P Q : Pool) (hQ : Q ≠ P) (X : List Nat)
    (hX : ∀ a ∈ X, a ∈ pool_blocks c Q) :
    X.filter (fun a => a ∈ pool_blocks c P) = [] :=
  List.filter_eq_nil_iff.mpr (fun a ha => by
    simpa using fun h => pool_blocks_disjoint c hc Q P hQ a (hX a ha) h)

/-- Conservation: the blocks on the free list of a pool and the held blocks of
that pool are as many as the pool has blocks. -/
theorem owned_count (c : Config) (hc : c.WF) (F : Pool → List Nat) (held : List Nat)
    (hF2 : ∀ P, ∀ a ∈ F P, a ∈ pool_blocks c P)
    (hF3 : (F Pool.small ++ F Pool.large ++ held).Perm (small_blocks c ++ large_blocks c))
    (P : Pool) :
    (F P).length + (held.filter (fun a => a ∈ pool_blocks c P)).length = block_count c P := by
  have h := (List.Perm.filter (fun a => decide (a ∈ pool_blocks c P)) hF3).length_eq
  have hS : ∀ a ∈ small_blocks c, a ∈ pool_blocks c Pool.small := fun _ h => h
  have hL : ∀ a ∈ large_blocks c, a ∈ pool_blocks c Pool.large := fun _ h => h
  simp only [List.filter_append, List.length_append] at h
  cases P with
  | small =>
    rw [filter_pool_self c Pool.small _ (hF2 Pool.small),
      filter_pool_other c hc Pool.small Pool.large (by decide) _ (hF2 Pool.large),
      filter_pool_self c Pool.small _ hS,
      filter_pool_other c hc Pool.small Pool.large (by decide) _ hL] at h
    have := pool_blocks_length c Pool.small
    simp only [pool_blocks, List.length_nil] at this h ⊢
    omega
  | large =>
    rw [filter_pool_self c Pool.large _ (hF2 Pool.large),
      filter_pool_other c hc Pool.large Pool.small (by decide) _ (hF2 Pool.small),
      filter_pool_self c Pool.large _ hL,
      filter_pool_other c hc Pool.large Pool.small (by decide) _ hS] at h
    have := pool_blocks_length c Pool.large
    simp only [pool_blocks, List.length_nil] at this h ⊢
    omega

/-- C17: acyclicity and conservation under the client contract. In every state
reached from a freshly initialised allocator by calls that obey the contract,
the walk of the debug probe from the head of pool `P` ends at null within `N_P`
steps; the nodes it visits are pairwise distinct blocks of `P`, and their number
is `N_P` minus the number of held blocks of `P`, hence at most `N_P`. -/
theorem C17_acyclic_conservation (c : Config) (s : State) (cs : List Call) (fuel : Nat)
    (P : Pool) (hc : c.WF) (hs : s.pools_inited = false)
    (hob : obeys c (init_pools c s) [] cs = true) (hfuel : block_count c P ≤ fuel) :
    ∃ L, free_list (run_held c (init_pools c s) [] cs).1.mem fuel
        ((run_held c (init_pools c s) [] cs).1.head P) = some L ∧
      L.Nodup ∧ (∀ a ∈ L, a ∈ pool_blocks c P) ∧
      L.length + ((run_held c (init_pools c s) [] cs).2.filter
        (fun a => a ∈ pool_blocks c P)).length = block_count c P ∧
      count_loop (run_held c (init_pools c s) [] cs).1.mem fuel
        ((run_held c (init_pools c s) [] cs).1.head P) 0 =
        some (block_count c P - ((run_held c (init_pools c s) [] cs).2.filter
          (fun a => a ∈ pool_blocks c P)).length) ∧
      L.length ≤ block_count c P := by
  obtain ⟨_, F, hF1, hF2, hF3⟩ := owned_run c hc cs (init_pools c s) []
    (init_pools_heads c s hs).2.2 (owned_init c hc s hs) hob
  have hcount := owned_count c hc F _ hF2 hF3 P
  have hlen : (F P).length ≤ fuel := by omega
  refine ⟨F P, free_list_of_isSeg _ _ _ fuel (hF1 P) hlen, owned_lists c hc F _ hF3 P,
    hF2 P, hcount, ?_, by omega⟩
  rw [count_loop_of_isSeg _ _ _ fuel 0 (hF1 P) hlen]
  congr 1
  omega

/-- C17 on a small build, after the calls `callsTiny` on a freshly initialised
allocator, for the small pool. -/
theorem C17_acyclic_conservation_witness :
    cfgTiny.WF ∧ State.initial.pools_inited = false ∧
    obeys cfgTiny (init_pools cfgTiny State.initial) [] callsTiny = true ∧
    block_count cfgTiny Pool.small ≤ 3 ∧
    (∃ L, free_list (run_held cfgTiny (init_pools cfgTiny State.initial) [] callsTiny).1.mem 3
        ((run_held cfgTiny (init_pools cfgTiny State.initial) [] callsTiny).1.head
          Pool.small) = some L ∧
      L.Nodup ∧ (∀ a ∈ L, a ∈ pool_blocks cfgTiny Pool.small) ∧
      L.length + ((run_held cfgTiny (init_pools cfgTiny State.initial) [] callsTiny).2.filter
        (fun a => a ∈ pool_blocks cfgTiny Pool.small)).length =
          block_count cfgTiny Pool.small ∧
      count_loop (run_held cfgTiny (init_pools cfgTiny State.initial) [] callsTiny).1.mem 3
        ((run_held cfgTiny (init_pools cfgTiny State.initial) [] callsTiny).1.head
          Pool.small) 0 =
        some (block_count cfgTiny Pool.small -
          ((run_held cfgTiny (init_pools cfgTiny State.initial) [] callsTiny).2.filter
            (fun a => a ∈ pool_blocks cfgTiny Pool.small)).length) ∧
      L.length ≤ block_count cfgTiny Pool.small) :=
  ⟨by decide, rfl, by decide, by decide,
    C17_acyclic_conservation cfgTiny State.initial callsTiny 3 Pool.small (by decide) rfl
      (by decide) (by decide)⟩

/-! ## 21. Double free -/

/-- A write at `p` does not change the walk before it first reaches `p`. -/
theorem nth_node_update (mem : Nat → Nat) (p v : Nat) (n h : Nat)
    (hfirst : ∀ k, k < n → nth_node mem k h ≠ p) :
    nth_node (Function.update mem p v) n h = nth_node mem n h := by
  induction n generalizing h with
  | zero => rfl
  | succ n ih =>
    unfold nth_node
    split
    · rfl
    · rename_i h0
      have hp : h ≠ p := hfirst 0 (Nat.succ_pos n)
      rw [Function.update_noteq hp]
      apply ih
      intro k hk
      have := hfirst (k + 1) (Nat.succ_lt_succ hk)
      unfold nth_node at this
      rw [if_neg h0] at this
      exact this

/-- Releasing the same address of pool `P` twice leaves it pointing to itself,
and the next two requests of class `P` both return it. -/
theorem double_free (c : Config) (s : State) (P : Pool) (p z : Nat)
    (hinit : s.pools_inited = true) (hp : release_class c p = some P)
    (hz : size_class z = some P) :
    (free c (free c s p) p).mem p = p ∧
    (malloc c (free c (free c s p) p) z).1 = p ∧
    (malloc c (malloc c (free c (free c s p) p) z).2 z).1 = p := by
  have hp0 : p ≠ 0 := by
    intro e
    simp [release_class, e] at hp
  have hi1 : (s.push P p).pools_inited = true := by rw [push_inited]; exact hinit
  have hi2 : ((s.push P p).push P p).pools_inited = true := by rw [push_inited]; exact hi1
  rw [free_eq_push c s P p hinit hp, free_eq_push c _ P p hi1 hp]
  have hm : ((s.push P p).push P p).mem p = p := by
    rw [push_mem, Function.update_same, push_head]
  have hh : ((s.push P p).push P p).head P = p := push_head _ P p
  have e1 : malloc c ((s.push P p).push P p) z =
      (p, ((s.push P p).push P p).set_head P p) := by
    rw [malloc_eq_pop c _ P z hi2 hz, hh, if_neg hp0, hm]
  have hi3 : (((s.push P p).push P p).set_head P p).pools_inited = true := by
    rw [set_head_inited]; exact hi2
  have e2 : (malloc c (((s.push P p).push P p).set_head P p) z).1 = p := by
    rw [malloc_eq_pop c _ P z hi3 hz, set_head_head, if_neg hp0]
  rw [e1]
  exact ⟨hm, rfl, e2⟩

/-- The first small request at program start returns the first small block. -/
theorem first_malloc_small (c : Config) (hc : c.WF) (s : State) (z : Nat)
    (hs : s.pools_inited = false) (hz : size_class z = some Pool.small) :
    (malloc c s z).1 = c.pool_small ∧ (malloc c s z).1 ∈ small_blocks c := by
  have hi := (init_pools_heads c s hs).2.2
  have hh : (init_pools c s).head Pool.small = c.pool_small := (init_pools_heads c s hs).1
  have h0 : c.pool_small ≠ 0 := Nat.pos_iff_ne_zero.mp hc.2.2.2.1
  have e : (malloc c s z).1 = c.pool_small := by
    rw [malloc_of_not_inited c s z hs, malloc_eq_pop c _ Pool.small z hi hz, hh, if_neg h0]
  refine ⟨e, ?_⟩
  rw [e]
  have := (mem_pool_blocks c Pool.small c.pool_small).mpr
    ⟨0, block_count_pos c hc Pool.small, by simp [pool_base]⟩
  exact this

/-- C18: a double free produces a cycle. On an initialised state, when `free`
classifies `p` into pool `P` and `p` is already reachable from the head of `P`,
`free(p)` is accepted: it pushes `p` as for any release, and afterwards `p` is
reachable from its own first word. Concretely, at program start,
`p = malloc(15); free(p); free(p)` leaves the first word of `p` equal to `p`
and the next two `malloc(15)` both return `p`. -/
theorem C18_double_free_cycle (c : Config) (s : State) (P : Pool) (p n : Nat)
    (hinit : s.pools_inited = true) (hp : release_class c p = some P)
    (hreach : nth_node s.mem n (s.head P) = p) :
    free c s p = s.push P p ∧ (free c s p).head P = p ∧
    (∃ m, nth_node (free c s p).mem m ((free c s p).mem p) = p) ∧
    (c.WF → ∀ s0 : State, s0.pools_inited = false →
      (free c (free c (malloc c s0 15).2 (malloc c s0 15).1) (malloc c s0 15).1).mem
        (malloc c s0 15).1 = (malloc c s0 15).1 ∧
      (malloc c (free c (free c (malloc c s0 15).2 (malloc c s0 15).1)
        (malloc c s0 15).1) 15).1 = (malloc c s0 15).1 ∧
      (malloc c (malloc c (free c (free c (malloc c s0 15).2 (malloc c s0 15).1)
        (malloc c s0 15).1) 15).2 15).1 = (malloc c s0 15).1 ∧
      (malloc c s0 15).1 ≠ 0) := by
  have hf := free_eq_push c s P p hinit hp
  refine ⟨hf, by rw [hf]; exact push_head s P p, ?_, ?_⟩
  · rw [hf, push_mem, Function.update_same]
    have hex : ∃ k, nth_node s.mem k (s.head P) = p := ⟨n, hreach⟩
    refine ⟨Nat.find hex, ?_⟩
    rw [nth_node_update s.mem p _ _ _ (fun k hk => Nat.find_min hex hk)]
    exact Nat.find_spec hex
  · intro hc s0 hs0
    have hz : size_class 15 = some Pool.small := by decide
    obtain ⟨e, hb⟩ := first_malloc_small c hc s0 15 hs0 hz
    have hcls := (release_class_iff c hc Pool.small _).mpr hb
    obtain ⟨d1, d2, d3⟩ := double_free c (malloc c s0 15).2 Pool.small (malloc c s0 15).1 15
      (malloc_inited c s0 15) hcls hz
    exact ⟨d1, d2, d3, small_blocks_ne_zero c hc _ hb⟩

/-- C18 on the default 64-bit build: the state after `malloc(15); free(p)` at
program start, where `p` is the head of the small list. -/
theorem C18_double_free_cycle_witness :
    (free cfg64 (malloc cfg64 State.initial 15).2 4096).pools_inited = true ∧
    release_class cfg64 4096 = some Pool.small ∧
    nth_node (free cfg64 (malloc cfg64 State.initial 15).2 4096).mem 0
      ((free cfg64 (malloc cfg64 State.initial 15).2 4096).head Pool.small) = 4096 ∧
    (free cfg64 (free cfg64 (malloc cfg64 State.initial 15).2 4096) 4096).head Pool.small
      = 4096 ∧
    (∃ m, nth_node (free cfg64 (free cfg64 (malloc cfg64 State.initial 15).2 4096) 4096).mem m
      ((free cfg64 (free cfg64 (malloc cfg64 State.initial 15).2 4096) 4096).mem 4096)
        = 4096) :=
  ⟨by decide, by decide, by decide,
    (C18_double_free_cycle cfg64 (free cfg64 (malloc cfg64 State.initial 15).2 4096)
      Pool.small 4096 0 (by decide) (by decide) (by decide)).2.1,
    (C18_double_free_cycle cfg64 (free cfg64 (malloc cfg64 State.initial 15).2 4096)
      Pool.small 4096 0 (by decide) (by decide) (by decide)).2.2.1⟩

/-! ## 22. Classification -/

/-- When no address passes both tests, the order of the two tests of `free` is
immaterial. -/
theorem free_large_first_eq (c : Config) (s : State) (p : Nat)
    (hex : ¬ (in_small c p = true ∧ in_large c p = true)) :
    free_large_first c s p = free c s p := by
  unfold in_small in_large at hex
  unfold free_large_first free
  by_cases h0 : p = 0
  · simp [h0]
  · cases hi : s.pools_inited with
    | false => simp [h0]
    | true =>
      cases hS : ptr_in_pool_and_aligned c p (pool_small_begin c) (pool_small_size_bytes c)
          (BLOCK_BYTES_SMALL c) with
      | false => simp [h0]
      | true =>
        cases hL : ptr_in_pool_and_aligned c p (pool_large_begin c)
            (pool_large_size_bytes c) (BLOCK_BYTES_LARGE c) with
        | false => simp [h0]
        | true => exact absurd ⟨hS, hL⟩ hex

/-- C19: classification accepts exactly the block starts. When `base +
pool_bytes` does not wrap around, `ptr_in_pool_and_aligned` with `pool_bytes =
POOL_WORDS * PTR_SZ` is true exactly for `p = base + i * block_bytes` with
`i < N`, for either pool; this uses `pool_bytes = N * block_bytes`. When the byte
ranges of the two pools are disjoint, no address passes both tests, and `free`
with the two tests exchanged is the same function. -/
theorem C19_classification (c : Config) (s : State) (p : Nat) (hW : 0 < c.PTR_SZ)
    (hfS : c.pool_small + POOL_SMALL_WORDS c * c.PTR_SZ < WORD_MOD c)
    (hfL : c.pool_large + POOL_LARGE_WORDS c * c.PTR_SZ < WORD_MOD c) :
    (ptr_in_pool_and_aligned c p (pool_small_begin c) (pool_small_size_bytes c)
        (BLOCK_BYTES_SMALL c) = true ↔
      ∃ i, i < c.SMALL_POOL_BLOCKS ∧ p = c.pool_small + i * BLOCK_BYTES_SMALL c) ∧
    (ptr_in_pool_and_aligned c p (pool_large_begin c) (pool_large_size_bytes c)
        (BLOCK_BYTES_LARGE c) = true ↔
      ∃ i, i < c.LARGE_POOL_BLOCKS ∧ p = c.pool_large + i * BLOCK_BYTES_LARGE c) ∧
    pool_small_size_bytes c = c.SMALL_POOL_BLOCKS * BLOCK_BYTES_SMALL c ∧
    pool_large_size_bytes c = c.LARGE_POOL_BLOCKS * BLOCK_BYTES_LARGE c ∧
    ((c.pool_small + POOL_SMALL_WORDS c * c.PTR_SZ ≤ c.pool_large ∨
        c.pool_large + POOL_LARGE_WORDS c * c.PTR_SZ ≤ c.pool_small) →
      ¬ (ptr_in_pool_and_aligned c p (pool_small_begin c) (pool_small_size_bytes c)
          (BLOCK_BYTES_SMALL c) = true ∧
        ptr_in_pool_and_aligned c p (pool_large_begin c) (pool_large_size_bytes c)
          (BLOCK_BYTES_LARGE c) = true) ∧
      free_large_first c s p = free c s p) := by
  have eS := pool_small_bytes_eq c
  have eL := pool_large_bytes_eq c
  have hBS := BLOCK_BYTES_SMALL_pos c hW
  have hBL := BLOCK_BYTES_LARGE_pos c hW
  have iS : ptr_in_pool_and_aligned c p (pool_small_begin c) (pool_small_size_bytes c)
        (BLOCK_BYTES_SMALL c) = true ↔
      ∃ i, i < c.SMALL_POOL_BLOCKS ∧ p = c.pool_small + i * BLOCK_BYTES_SMALL c := by
    unfold pool_small_size_bytes pool_small_begin
    rw [eS]
    exact ptr_in_pool_iff c p _ _ _ hBS (by rw [← eS]; exact hfS)
  have iL : ptr_in_pool_and_aligned c p (pool_large_begin c) (pool_large_size_bytes c)
        (BLOCK_BYTES_LARGE c) = true ↔
      ∃ i, i < c.LARGE_POOL_BLOCKS ∧ p = c.pool_large + i * BLOCK_BYTES_LARGE c := by
    unfold pool_large_size_bytes pool_large_begin
    rw [eL]
    exact ptr_in_pool_iff c p _ _ _ hBL (by rw [← eL]; exact hfL)
  have sS : pool_small_size_bytes c = c.SMALL_POOL_BLOCKS * BLOCK_BYTES_SMALL c := by
    unfold pool_small_size_bytes
    rw [eS]
    exact Nat.mod_eq_of_lt (by omega)
  have sL : pool_large_size_bytes c = c.LARGE_POOL_BLOCKS * BLOCK_BYTES_LARGE c := by
    unfold pool_large_size_bytes
    rw [eL]
    exact Nat.mod_eq_of_lt (by omega)
  refine ⟨iS, iL, sS, sL, ?_⟩
  intro hdis
  have hex : ¬ (ptr_in_pool_and_aligned c p (pool_small_begin c) (pool_small_size_bytes c)
        (BLOCK_BYTES_SMALL c) = true ∧
      ptr_in_pool_and_aligned c p (pool_large_begin c) (pool_large_size_bytes c)
        (BLOCK_BYTES_LARGE c) = true) := by
    rintro ⟨h1, h2⟩
    obtain ⟨i, hi, hpi⟩ := iS.mp h1
    obtain ⟨j, hj, hpj⟩ := iL.mp h2
    clear iS iL h1 h2
    have b1 : i * BLOCK_BYTES_SMALL c < c.SMALL_POOL_BLOCKS * BLOCK_BYTES_SMALL c :=
      Nat.mul_lt_mul_of_pos_right hi hBS
    have b2 : j * BLOCK_BYTES_LARGE c < c.LARGE_POOL_BLOCKS * BLOCK_BYTES_LARGE c :=
      Nat.mul_lt_mul_of_pos_right hj hBL
    omega
  exact ⟨hex, free_large_first_eq c s p hex⟩

/-- C19 on the default 64-bit build, for the address of the second small
block. -/
theorem C19_classification_witness :
    0 < cfg64.PTR_SZ ∧
    cfg64.pool_small + POOL_SMALL_WORDS cfg64 * cfg64.PTR_SZ < WORD_MOD cfg64 ∧
    cfg64.pool_large + POOL_LARGE_WORDS cfg64 * cfg64.PTR_SZ < WORD_MOD cfg64 ∧
    (ptr_in_pool_and_aligned cfg64 4112 (pool_small_begin cfg64)
        (pool_small_size_bytes cfg64) (BLOCK_BYTES_SMALL cfg64) = true ↔
      ∃ i, i < cfg64.SMALL_POOL_BLOCKS ∧
        4112 = cfg64.pool_small + i * BLOCK_BYTES_SMALL cfg64) ∧
    ptr_in_pool_and_aligned cfg64 4112 (pool_small_begin cfg64)
        (pool_small_size_bytes cfg64) (BLOCK_BYTES_SMALL cfg64) = true ∧
    pool_small_size_bytes cfg64 = cfg64.SMALL_POOL_BLOCKS * BLOCK_BYTES_SMALL cfg64 :=
  ⟨by decide, by decide, by decide,
    (C19_classification cfg64 stBoth 4112 (by decide) (by decide) (by decide)).1,
    by decide,
    (C19_classification cfg64 stBoth 4112 (by decide) (by decide) (by decide)).2.2.1⟩

/-! ## 23. Class independence -/

/-- A request of class `P` changes at most the head of `P`. -/
theorem malloc_frame (c : Config) (s : State) (P Q : Pool) (z : Nat)
    (hinit : s.pools_inited = true) (hz : size_class z = some P) (hQ : Q ≠ P) :
    (malloc c s z).2.head Q = s.head Q ∧ (malloc c s z).2.mem = s.mem ∧
    (malloc c s z).2.pools_inited = true := by
  rw [malloc_eq_pop c s P z hinit hz]
  split
  · exact ⟨rfl, rfl, hinit⟩
  · exact ⟨set_head_other s P Q _ hQ, set_head_mem s P _, by
      rw [set_head_inited]; exact hinit⟩

/-- Requests of class `P`, however many, change at most the head of `P`. -/
theorem mallocs_frame (c : Config) (P Q : Pool) (zs : List Nat) (s : State)
    (hinit : s.pools_inited = true) (hzs : ∀ x ∈ zs, size_class x = some P) (hQ : Q ≠ P) :
    (mallocs c s zs).2.head Q = s.head Q ∧ (mallocs c s zs).2.mem = s.mem := by
  induction zs generalizing s with
  | nil => exact ⟨rfl, rfl⟩
  | cons z zs ih =>
    obtain ⟨h1, h2, h3⟩ := malloc_frame c s P Q z hinit (hzs z (List.mem_cons_self _ _)) hQ
    obtain ⟨i1, i2⟩ := ih (malloc c s z).2 h3 (fun x hx => hzs x (List.mem_cons_of_mem _ hx))
    simp only [mallocs]
    exact ⟨i1.trans h1, i2.trans h2⟩

/-- C20: class independence. On an initialised state, a request served from pool
`P` and a release classified into pool `P` leave the head of the other pool `Q`
and the first word of every block of `Q` unchanged; so any run of requests of
class `P`, such as one that exhausts `P`, leaves the memory, the head of `Q`
and hence the free list of `Q` as they were. -/
theorem C20_class_independence (c : Config) (s : State) (P Q : Pool) (z p a : Nat)
    (zs : List Nat) (fuel : Nat) (hc : c.WF) (hinit : s.pools_inited = true)
    (hQ : Q ≠ P) (hz : size_class z = some P) (hp : release_class c p = some P)
    (ha : a ∈ pool_blocks c Q) (hzs : ∀ x ∈ zs, size_class x = some P) :
    (malloc c s z).2.head Q = s.head Q ∧ (malloc c s z).2.mem a = s.mem a ∧
    (free c s p).head Q = s.head Q ∧ (free c s p).mem a = s.mem a ∧
    (mallocs c s zs).2.head Q = s.head Q ∧ (mallocs c s zs).2.mem = s.mem ∧
    free_list (mallocs c s zs).2.mem fuel ((mallocs c s zs).2.head Q) =
      free_list s.mem fuel (s.head Q) := by
  obtain ⟨m1, m2, _⟩ := malloc_frame c s P Q z hinit hz hQ
  obtain ⟨f1, f2⟩ := mallocs_frame c P Q zs s hinit hzs hQ
  have hpb : p ∈ pool_blocks c P := (release_class_iff c hc P p).mp hp
  have hap : a ≠ p := fun e => pool_blocks_disjoint c hc Q P hQ a ha (e ▸ hpb)
  rw [free_eq_push c s P p hinit hp]
  refine ⟨m1, by rw [m2], push_head_other s P Q p hQ, ?_, f1, f2, by rw [f1, f2]⟩
  rw [push_mem, Function.update_noteq hap]

/-- C20 on the default 64-bit build: after `malloc(15)` at program start, small
requests and a small release against the large pool. -/
theorem C20_class_independence_witness :
    cfg64.WF ∧ (malloc cfg64 State.initial 15).2.pools_inited = true ∧
    Pool.large ≠ Pool.small ∧ size_class 7 = some Pool.small ∧
    release_class cfg64 4096 = some Pool.small ∧
    20480 ∈ pool_blocks cfg64 Pool.large ∧
    (∀ x ∈ List.replicate 2000 1, size_class x = some Pool.small) ∧
    (free cfg64 (malloc cfg64 State.initial 15).2 4096).head Pool.large =
      (malloc cfg64 State.initial 15).2.head Pool.large ∧
    (free cfg64 (malloc cfg64 State.initial 15).2 4096).mem 20480 =
      (malloc cfg64 State.initial 15).2.mem 20480 ∧
    free_list (mallocs cfg64 (malloc cfg64 State.initial 15).2 (List.replicate 2000 1)).2.mem
        128 ((mallocs cfg64 (malloc cfg64 State.initial 15).2
          (List.replicate 2000 1)).2.head Pool.large) =
      free_list (malloc cfg64 State.initial 15).2.mem 128
        ((malloc cfg64 State.initial 15).2.head Pool.large) :=
  have hzs : ∀ x ∈ List.replicate 2000 1, size_class x = some Pool.small := fun x hx => by
    rw [List.eq_of_mem_replicate hx]
    decide
  have hb : 20480 ∈ pool_blocks cfg64 Pool.large :=
    (mem_pool_blocks cfg64 Pool.large 20480).mpr ⟨0, by decide, by decide⟩
  have h := C20_class_independence cfg64 (malloc cfg64 State.initial 15).2 Pool.small
    Pool.large 7 4096 20480 (List.replicate 2000 1) 128 (by decide) (by decide) (by decide)
    (by decide) (by decide) hb hzs
  ⟨by decide, by decide, by decide, by decide, by decide, hb, hzs, h.2.2.1, h.2.2.2.1,
    h.2.2.2.2.2.2⟩

end CustomAlloc
